import Mathlib

/-!
Verification of the libccli interactive command-line library.

This file gives a shallow embedding, in Lean 4, of the parts of libccli
that the specification's testable properties talk about:

* the line buffer (`struct line_buf`) and its editing operations
  (`line.c` / the line-editing half of the library),
* the shell-style tokeniser `ccli_line_parse_multi`,
* the command registry (`ccli_register_command`) and the alias registry
  (`ccli_register_alias`, `execute_alias`),
* the history ring (`history_add`, `history_up`, `history_down`,
  `ccli_history`),
* the tagged-section cache codec (`cache_save_fd`, `cache_load_fd`,
  `read_line`, `has_tag`),
* the completion engine (`find_matches`, `sort_unique`, `do_completion`).

Bytes are modelled as `Int` (C `char` values; the special sentinel
`CHAR_NEWLINE = -128` motivates a signed carrier), C strings as `List Int`
with the terminating NUL left implicit (the end of the list plays the role
of the terminator; inputs are assumed to contain no embedded NUL byte).
Machine-level caveats of the C source that a total model has to decide are
recorded next to the definition concerned:

* an out-of-bounds read of a heap buffer (undefined behaviour in C) is
  modelled as reading the byte 0;
* bytes freshly obtained from `realloc` (indeterminate in C) are modelled
  by the fixed non-zero placeholder `junkByte`.
-/

namespace Ccli

/-- C `isspace` in the C locale: space and the five control whitespace
characters 0x09..0x0D (the source wraps it as the `ISSPACE` macro). -/
def ISSPACE (c : Int) : Bool :=
  c = 32 || (9 ≤ c && c ≤ 13)

/-- C `isalnum` in the C locale: ASCII digits and letters. -/
def isalnum (c : Int) : Bool :=
  (48 ≤ c && c ≤ 57) || (65 ≤ c && c ≤ 90) || (97 ≤ c && c ≤ 122)

/-- C `isprint` in the C locale: 0x20..0x7E. -/
def isprint (c : Int) : Bool :=
  32 ≤ c && c ≤ 126

/-- Sentinel passed to `line_insert` when a backslash-newline continuation
was entered (`CHAR_NEWLINE` in `ccli-local.h`). -/
def CHAR_NEWLINE : Int := -128

/-- The glibc default stdio buffer size; the line buffer grows in chunks
of this size. -/
def BUFSIZ : Int := 8192

/-- Placeholder for bytes whose value C leaves indeterminate (the region a
growing `realloc` adds).  Any fixed non-zero value serves; no theorem may
depend on which one. -/
def junkByte : Int := 7

/-- Read a byte of a heap buffer.  A negative index or an index at or past
the end of the allocation is an out-of-bounds access, undefined in C; the
model returns 0 for it (the buffers of interest are `calloc`-zeroed). -/
def byteAt (d : List Int) (i : Int) : Int :=
  if i < 0 then 0 else d.getD i.toNat 0

/-- Write a byte of a heap buffer (no-op when out of bounds, matching the
reading convention of `byteAt`). -/
def setAt (d : List Int) (i : Int) (v : Int) : List Int :=
  if i < 0 then d else d.set i.toNat v

/-- Bytes of the C string stored in a buffer: everything before the first
NUL byte (what `strlen`/`strdup`/`echo_str` see). -/
def cstring (d : List Int) : List Int :=
  d.takeWhile (fun c => c ≠ 0)

/-- In-memory image of `struct line_buf`: the allocation `data` (of
`size` bytes), the logical length `len`, the cursor `pos` and the start
marker `start` used by backslash-newline continuations. -/
structure LineBuf where
  data : List Int
  size : Int
  len : Int
  pos : Int
  start : Int
  deriving Repr, DecidableEq

namespace LineBuf

/-- The `line_insert` operation of `line.c`.  Returns the C result code
together with the new buffer.  The `CHAR_NEWLINE` branch removes the
trailing backslash and turns the current end of line into the new `start`;
otherwise the buffer grows by `BUFSIZ` when full (fresh bytes are
indeterminate in C, `junkByte` here), the tail from `pos` is shifted right
and the byte is stored at `pos`. -/
def line_insert (l : LineBuf) (ch : Int) : Int × LineBuf :=
  if ch = CHAR_NEWLINE then
    if l.len = 0 ∨ byteAt l.data (l.len - 1) ≠ 92 then
      (-1, l)
    else
      let len := l.len - 1
      (0, { l with data := setAt l.data len 0,
                   len := len, pos := len, start := len })
  else
    let l1 : LineBuf :=
      if l.len = l.size then
        { l with data := l.data ++ List.replicate BUFSIZ.toNat junkByte,
                 size := l.size + BUFSIZ }
      else l
    let d :=
      if l1.pos < l1.len then
        l1.data.take (l1.pos.toNat + 1) ++
          (l1.data.drop l1.pos.toNat).take (l1.len - l1.pos).toNat ++
          l1.data.drop (l1.len.toNat + 1)
      else l1.data
    (0, { l1 with data := setAt d l1.pos ch,
                  pos := l1.pos + 1, len := l1.len + 1 })

/-- The `line_reset` operation: zero the allocation and all indices. -/
def line_reset (l : LineBuf) : LineBuf :=
  { l with data := List.replicate l.size.toNat 0,
           len := 0, pos := 0, start := 0 }

/-- The `line_right` operation: move the cursor right, clamped at `len`. -/
def line_right (l : LineBuf) : LineBuf :=
  if l.pos < l.len then { l with pos := l.pos + 1 } else l

/-- The `line_left` operation: move the cursor left, clamped at `start`. -/
def line_left (l : LineBuf) : LineBuf :=
  if l.pos > l.start then { l with pos := l.pos - 1 } else l

/-- The `line_home` operation: cursor to `start`. -/
def line_home (l : LineBuf) : LineBuf :=
  { l with pos := l.start }

/-- The `line_end` operation: cursor to `len`. -/
def line_end (l : LineBuf) : LineBuf :=
  { l with pos := l.len }

/-- The `line_backspace` operation: refuse at `pos = start`, otherwise
shift the tail left over the byte before the cursor and NUL-terminate. -/
def line_backspace (l : LineBuf) : LineBuf :=
  if l.pos = l.start then l
  else
    let n := l.len - l.pos
    let pos := l.pos - 1
    let len := l.len - 1
    let d := l.data.take pos.toNat ++
      (l.data.drop l.pos.toNat).take n.toNat ++
      l.data.drop (pos.toNat + n.toNat)
    { l with data := setAt d len 0, pos := pos, len := len }

/-- The `line_del` operation: refuse at `pos = len`, otherwise shift the
tail left over the byte under the cursor and NUL-terminate. -/
def line_del (l : LineBuf) : LineBuf :=
  if l.pos = l.len then l
  else
    let n := l.len - l.pos
    let len := l.len - 1
    let d := l.data.take l.pos.toNat ++
      (l.data.drop (l.pos.toNat + 1)).take n.toNat ++
      l.data.drop (l.pos.toNat + n.toNat)
    { l with data := setAt d len 0, len := len }

/-- First loop of `line_left_word`:
`while ((line->pos-- > line->start) && !isalnum(line->line[line->pos]));`.
The post-decrement always fires, so the loop leaves `pos` one below the
position that ended it (possibly `start - 1`, possibly `-1`; reading the
byte at `-1` is then an out-of-bounds access, 0 in this model).  The
first argument counts the remaining loop steps; the caller passes
`(pos - start).toNat + 1`, which exactly dominates the number of
iterations, so the 0 case is never reached. -/
def leftWordSkipPunct (d : List Int) (start : Int) : Nat → Int → Int
  | 0, pos => pos
  | Nat.succ fuel, pos =>
    if pos > start then
      if isalnum (byteAt d (pos - 1)) then pos - 1
      else leftWordSkipPunct d start fuel (pos - 1)
    else pos - 1

/-- Second loop of `line_left_word`:
`while ((line->pos > line->start) && isalnum(line->line[line->pos])) line->pos--;`. -/
def leftWordSkipAlnum (d : List Int) (start : Int) : Nat → Int → Int
  | 0, pos => pos
  | Nat.succ fuel, pos =>
    if pos > start ∧ isalnum (byteAt d pos) then
      leftWordSkipAlnum d start fuel (pos - 1)
    else pos

/-- The `line_left_word` operation: skip non-alphanumerics leftwards, then
alphanumerics, then step right once when the final byte is not
alphanumeric. -/
def line_left_word (l : LineBuf) : LineBuf :=
  let p1 := leftWordSkipPunct l.data l.start ((l.pos - l.start).toNat + 1) l.pos
  let p2 := leftWordSkipAlnum l.data l.start ((p1 - l.start).toNat + 1) p1
  let p3 := if isalnum (byteAt l.data p2) then p2 else p2 + 1
  { l with pos := p3 }

/-- Helper `del_words` of `line.c`: delete the bytes between the (already
moved) cursor and `old_pos`, shifting the tail left and zero-filling the
vacated range.  Returns the number of bytes removed, as the C helper
does. -/
def del_words (l : LineBuf) (old_pos : Int) : Int × LineBuf :=
  let n := l.len - old_pos
  let len := l.len - (old_pos - l.pos)
  let d := l.data.take l.pos.toNat ++
    (l.data.drop old_pos.toNat).take n.toNat ++
    l.data.drop (l.pos.toNat + n.toNat)
  let d2 := d.take len.toNat ++
    List.replicate (old_pos - l.pos).toNat 0 ++
    d.drop (len + (old_pos - l.pos)).toNat
  (old_pos - l.pos, { l with data := d2, len := len })

/-- The `line_del_beginning` operation (delete to start of line). -/
def line_del_beginning (l : LineBuf) : Int × LineBuf :=
  if l.pos = l.start then (0, l)
  else
    let s := l.pos
    del_words (line_home l) s

/-- The `line_del_word` operation (delete the word left of the cursor). -/
def line_del_word (l : LineBuf) : Int × LineBuf :=
  if l.pos = l.start then (0, l)
  else
    let s := l.pos
    del_words (line_left_word l) s

/-- The `line_replace` operation: overwrite the buffer with `str`
(truncated to `size - 1` bytes), zero-fill the remainder of the previous
content, and move the cursor to the new end.  `start` is not touched. -/
def line_replace (l : LineBuf) (str : List Int) : LineBuf :=
  let n : Int := if (str.length : Int) ≥ l.size then l.size - 1 else str.length
  let d := str.take n.toNat ++ l.data.drop n.toNat
  let d2 :=
    if n < l.len then
      d.take n.toNat ++ List.replicate (l.len - n).toNat 0 ++ d.drop l.len.toNat
    else d
  { l with data := d2, len := n, pos := n }

/-- The `line_copy` operation: allocate a fresh zeroed buffer of the same
size and copy the first `min(len, src.len)` bytes of the source C string
into it (`strncpy` stops at the source's NUL and zero-fills). -/
def line_copy (src : LineBuf) (len : Int) : LineBuf :=
  let n : Int := if len > src.len then src.len else len
  let copied := (cstring src.data).take n.toNat
  { data := copied ++ List.replicate (src.size.toNat - copied.length) 0,
    size := src.size, len := n, pos := n, start := 0 }

/-- The invariant claimed for the line buffer by the specification:
`0 ≤ start ≤ pos ≤ len < capacity` and a NUL byte at offset `len`. -/
def inv (l : LineBuf) : Prop :=
  0 ≤ l.start ∧ l.start ≤ l.pos ∧ l.pos ≤ l.len ∧ l.len < l.size ∧
  byteAt l.data l.len = 0

instance (l : LineBuf) : Decidable (inv l) := by
  unfold inv; infer_instance

/-- Well-formed buffer states: the claimed index ordering, an allocation
of exactly `size` bytes, and a zeroed tail from `len` to the end of the
allocation (`line_init` uses `calloc` and every editing operation zeroes
what it vacates). -/
def wf (l : LineBuf) : Prop :=
  0 ≤ l.start ∧ l.start ≤ l.pos ∧ l.pos ≤ l.len ∧ l.len < l.size ∧
  l.data.length = l.size.toNat ∧
  l.data.drop l.len.toNat = List.replicate (l.size.toNat - l.len.toNat) 0

instance (l : LineBuf) : Decidable (wf l) := by
  unfold wf; infer_instance

/-- What the line-buffer operations actually guarantee on a well-formed
buffer.  The operations `left`, `right`, `home`, `end`, `backspace`,
`delete`, `delete_to_start`, `reset` and insertion of the continuation
sentinel re-establish the full claimed invariant.  Insertion of a
printable byte guarantees only `start ≤ pos ≤ len ≤ capacity` in general
(full invariant when a byte of room remains), `replace` guarantees
`0 ≤ pos = len < capacity` with a NUL at `len` (full invariant when the
truncated replacement is at least `start` long), and `delete_word`
guarantees `0 ≤ pos ≤ len < capacity` with a NUL at `len` (it can leave
`pos < start`). -/
def lineOpsPost (l : LineBuf) (ch : Int) (str : List Int) : Prop :=
  inv (line_insert l CHAR_NEWLINE).2 ∧
  inv (line_left l) ∧ inv (line_right l) ∧ inv (line_home l) ∧
  inv (line_end l) ∧ inv (line_backspace l) ∧ inv (line_del l) ∧
  inv (line_del_beginning l).2 ∧ inv (line_reset l) ∧
  (0 ≤ (line_insert l ch).2.start ∧
    (line_insert l ch).2.start ≤ (line_insert l ch).2.pos ∧
    (line_insert l ch).2.pos ≤ (line_insert l ch).2.len ∧
    (line_insert l ch).2.len ≤ (line_insert l ch).2.size) ∧
  (l.len + 1 < l.size → inv (line_insert l ch).2) ∧
  (0 ≤ (line_replace l str).pos ∧
    (line_replace l str).pos = (line_replace l str).len ∧
    (line_replace l str).len < (line_replace l str).size ∧
    byteAt (line_replace l str).data (line_replace l str).len = 0) ∧
  (l.start ≤ (line_replace l str).len → inv (line_replace l str)) ∧
  (0 ≤ (line_del_word l).2.pos ∧
    (line_del_word l).2.pos ≤ (line_del_word l).2.len ∧
    (line_del_word l).2.len < (line_del_word l).2.size ∧
    byteAt (line_del_word l).2.data (line_del_word l).2.len = 0)

end LineBuf

/- ===== additional definitions (tokeniser, registries, history, cache,
completion) are given below; all proofs follow the definitions. ===== -/

/-- The `match_delim` helper of `line.c`:
`delim && strncmp(word, delim, dlen) == 0`, i.e. the remaining input
starts with the delimiter string (an absent delimiter never matches). -/
def match_delim (p : List Int) (delim : Option (List Int)) : Bool :=
  match delim with
  | none => false
  | some dl => dl.isPrefixOf p

/-- The inner scanning loop of `ccli_line_parse_multi`
(`for ( ; !last && *p && (q || !match_delim(p, delim, dlen)); p++)`).
Given the quote state `q` (0 when outside quotes) it returns the bytes of
the current word (still containing quotes and backslashes) and the
unconsumed remainder of the input.  A quote byte toggles `q` and is kept;
a backslash consumes the following byte unless the input ends (the
backslash is kept alone) or, outside quotes, the next position matches the
delimiter (the scan stops after the backslash); an unquoted whitespace
byte ends the word and is left in the remainder. -/
def scanWord (q : Int) (p : List Int) (delim : Option (List Int)) :
    List Int × List Int :=
  match p with
  | [] => ([], [])
  | c :: rest =>
    if q = 0 ∧ match_delim (c :: rest) delim then ([], c :: rest)
    else if c = 39 ∨ c = 34 then
      let q2 := if q = 0 then c else if c = q then 0 else q
      let wr := scanWord q2 rest delim
      (c :: wr.1, wr.2)
    else if c = 92 then
      match rest with
      | [] => ([c], [])
      | y :: rest2 =>
        if q = 0 ∧ match_delim (y :: rest2) delim then ([c], y :: rest2)
        else
          let wr := scanWord q rest2 delim
          (c :: y :: wr.1, wr.2)
    else if q ≠ 0 then
      let wr := scanWord q rest delim
      (c :: wr.1, wr.2)
    else if ISSPACE c then ([], c :: rest)
    else
      let wr := scanWord q rest delim
      (c :: wr.1, wr.2)

/-- The second pass of `ccli_line_parse_multi`
(`/* Now remove quotes and backslashes */`): quote bytes toggle the quote
state and are dropped; a backslash keeps the following byte verbatim (or
itself, at the end of the word); every other byte is copied. -/
def stripArg (q : Int) (u : List Int) : List Int :=
  match u with
  | [] => []
  | c :: rest =>
    if c = 39 ∨ c = 34 then
      let q2 := if q = 0 then c else if c = q then 0 else q
      stripArg q2 rest
    else if c = 92 then
      match rest with
      | [] => [c]
      | y :: rest2 => y :: stripArg q rest2
    else c :: stripArg q rest

/-- The outer word loop of `ccli_line_parse_multi`.  When `escape` is not
set, runs of whitespace are skipped and a leading backslash enters the
escape branch, which consumes the backslash and the following byte (when
present) and restarts the loop with `escape` set (so that the skipping of
whitespace is suppressed once).  A word starting with the delimiter stops
parsing; otherwise the word is scanned, cleaned up with `stripArg` and
appended.  Returns the argument vector and the unconsumed remainder
(positioned at the delimiter when one stopped the parse).  The fuel only
serves termination; `2 * |input| + 1` strictly dominates the number of
iterations, since at most one zero-byte iteration can separate
byte-consuming ones. -/
def parseWords (fuel : Nat) (escape : Bool) (p : List Int)
    (delim : Option (List Int)) : List (List Int) × List Int :=
  match fuel with
  | 0 => ([], p)
  | Nat.succ fuel =>
    let p1 := if escape then p else p.dropWhile (fun c => ISSPACE c)
    match p1 with
    | [] => ([], [])
    | c :: rest =>
      if ¬ escape ∧ c = 92 then
        let p2 := match rest with
          | [] => ([] : List Int)
          | _ :: rest2 => rest2
        parseWords fuel true p2 delim
      else if match_delim (c :: rest) delim then ([], c :: rest)
      else
        let wr := scanWord 0 (c :: rest) delim
        let arg := stripArg 0 wr.1
        let ar := parseWords fuel false wr.2 delim
        (arg :: ar.1, ar.2)

/-- The `ccli_line_parse_multi` function of `line.c`, as the argument
vector it builds together with the remainder of the line (which the C
function exposes through `*next` when a delimiter stopped the parse).
Allocation failure (its only error path) is not modelled. -/
def ccli_line_parse_multi (line : List Int) (delim : Option (List Int)) :
    List (List Int) × List Int :=
  parseWords (2 * line.length + 1) false line delim

/-- The `ccli_line_parse` function: parse with no delimiter. -/
def ccli_line_parse (line : List Int) : List (List Int) :=
  (ccli_line_parse_multi line none).1

/-- Replace the element at an index by applying `f` (C writes through a
pointer into the array; out-of-range indices leave the list unchanged). -/
def modifyIdx (f : α → α) : Nat → List α → List α
  | _, [] => []
  | 0, a :: l => f a :: l
  | Nat.succ n, a :: l => a :: modifyIdx f n l

/-- Result of one completion-callback invocation: the value the callback
returns (the candidate count), the words it appended to the list it was
handed, and the byte it left at `match[mlen]` (a callback may overwrite
the terminator of the match in place to request a delimiter other than
space; 0 means it left the NUL untouched). -/
structure CompResult where
  ret : Int
  items : List (List Int)
  term : Int

/-- A completion callback (`ccli_completion`), as a mathematical function
of the arguments the C callback receives: registered command name, line
up to the cursor, word index, match, opaque data. -/
def CompFn : Type :=
  List Int → List Int → Int → List Int → Nat → CompResult

/-- One record of the command registry (`struct command`): name,
callback, optional completion callback, opaque data.  The callback and
the data are opaque pointers in C; their identity is what matters, so
they are modelled by bare tokens. -/
structure Command where
  cmd : List Int
  callback : Nat
  completion : Option CompFn
  data : Nat

/-- The `find_command` lookup: index of the first record with the given
name. -/
def find_command_idx (cmds : List Command) (name : List Int) : Option Nat :=
  cmds.findIdx? (fun c => c.cmd = name)

/-- The `find_command` lookup, returning the record itself. -/
def find_command (cmds : List Command) (name : List Int) : Option Command :=
  cmds.find? (fun c => c.cmd = name)

/-- The `ccli_register_command` operation: an existing record with the
same name is overridden in place (callback and data only; the stored
name string is reused); otherwise a fresh record is appended with a copy
of the name and no completion.  The C null-pointer checks and the
allocation failure path are outside the model. -/
def ccli_register_command (cmds : List Command) (name : List Int)
    (callback : Nat) (data : Nat) : Int × List Command :=
  match find_command_idx cmds name with
  | some i =>
      (0, modifyIdx (fun c => { c with callback := callback, data := data }) i cmds)
  | none =>
      (0, cmds ++ [{ cmd := name, callback := callback, completion := none,
                     data := data }])

/-- One record of the alias registry (`struct alias`): the alias name
(the C field is called `alias`, which is a reserved word here), the
expansion string, and the transient `exec` flag set while the alias is
being dispatched. -/
structure Alias where
  aname : List Int
  command : List Int
  exec : Bool
  deriving Repr, DecidableEq

/-- The `find_alias` lookup: index of the first record with the given
name. -/
def find_alias_idx (al : List Alias) (name : List Int) : Option Nat :=
  al.findIdx? (fun a => a.aname = name)

/-- The `remove_alias` helper: drop the named record and compact the
array; `-1` when the alias does not exist. -/
def remove_alias (al : List Alias) (name : List Int) : Int × List Alias :=
  match find_alias_idx al name with
  | none => (-1, al)
  | some i => (0, al.eraseIdx i)

/-- The `ccli_register_alias` operation: an absent or empty expansion
removes the alias; an existing record has its expansion replaced in
place (the old expansion string is freed); otherwise a fresh record is
appended.  Allocation failure is outside the model. -/
def ccli_register_alias (al : List Alias) (name : List Int)
    (command : List Int) : Int × List Alias :=
  if command.length = 0 then remove_alias al name
  else
    match find_alias_idx al name with
    | some i => (0, modifyIdx (fun a => { a with command := command }) i al)
    | none => (0, al ++ [{ aname := name, command := command, exec := false }])

/-- Observable actions of the dispatch engine, used to state which hook
an execution reaches: the enter hook (empty line), a registered command
callback, the unknown-command hook, one alias expansion, and one
history-ring append. -/
inductive Event where
  | enter : Event
  | cmdRun (name : List Int) (argv : List (List Int)) : Event
  | unknown (line : List Int) (argv : List (List Int)) : Event
  | expand (name : List Int) : Event
  | hist (line : List Int) : Event
  deriving Repr, DecidableEq

/-- The line `execute_alias` builds: the expansion followed by
`argv[1..]`, space separated (`strcpy` + a space-prefixed `strcpy` per
remaining argument). -/
def build_alias_line (command : List Int) (args : List (List Int)) : List Int :=
  command ++ (args.map (fun a => 32 :: a)).flatten

mutual

/-- Modelled from the spec: the alias-aware dispatcher `execute`
(declared in `ccli-local.h` as `execute(ccli, line, hist)` and called by
`execute_alias`, but its definition is not among the sources).  Spec
§4.7: tokenise; zero arguments invoke the enter hook; a first word
naming an alias is handed to `execute_alias` (which is in the sources
and itself implements the not-currently-executing test through the
`exec` flag); otherwise a registered command's callback, otherwise the
unknown hook; finally the raw line is appended to history unless the
caller suppressed it.  Callbacks are opaque, so the model returns the
trace of hooks reached together with the final alias registry.  The
fuel only bounds the alias-recursion depth. -/
def executeD (fuel : Nat) (cmds : List Command) (al : List Alias)
    (line : List Int) (hist : Bool) : List Alias × List Event :=
  match fuel with
  | 0 => (al, [])
  | Nat.succ fuel =>
    match ccli_line_parse line with
    | [] => (al, [Event.enter])
    | a0 :: rest =>
      match find_alias_idx al a0 with
      | some i =>
          let r := execute_aliasD fuel cmds al i line (a0 :: rest)
          (r.1, r.2 ++ (if hist then [Event.hist line] else []))
      | none =>
          match find_command cmds a0 with
          | some c =>
              (al, [Event.cmdRun c.cmd (a0 :: rest)] ++
                (if hist then [Event.hist line] else []))
          | none =>
              (al, [Event.unknown line (a0 :: rest)] ++
                (if hist then [Event.hist line] else []))

/-- The `execute_alias` function of the alias sources: when the alias is
already executing, the invocation goes straight to the unknown hook;
otherwise the `exec` flag is set, the expansion line is built from the
expansion and `argv[1..]`, that line is executed without recording
history, and the flag is cleared again. -/
def execute_aliasD (fuel : Nat) (cmds : List Command) (al : List Alias)
    (i : Nat) (line : List Int) (argv : List (List Int)) :
    List Alias × List Event :=
  match al.get? i with
  | none => (al, [])
  | some a =>
    if a.exec then (al, [Event.unknown line argv])
    else
      let al1 := modifyIdx (fun x => { x with exec := true }) i al
      let new_line := build_alias_line a.command argv.tail
      let r := executeD fuel cmds al1 new_line false
      (modifyIdx (fun x => { x with exec := false }) i r.1,
        Event.expand a.aname :: r.2)

end

/-- The history-related fields of `struct ccli`: the slot array (its C
length is `min(history_size, history_max)`; `history_add` grows it one
slot at a time until it reaches `history_max`), the monotonic count of
lines ever added, the ring capacity, the index the user is viewing
(`history_size` meaning the line being composed), the scratch copy of
the in-progress line, and the edit buffer `ccli->line`. -/
structure HState where
  history : List (List Int)
  history_size : Int
  history_max : Int
  current_line : Int
  temp_line : Option (List Int)
  line : LineBuf
  deriving Repr, DecidableEq

namespace HState

/-- The `history_idx` helper: `idx % ccli->history_max` (both operands
are non-negative wherever the helper is used; C's truncating `%` is
`Int.tmod`). -/
def history_idx (st : HState) (idx : Int) : Int :=
  idx.tmod st.history_max

/-- The `history_add` operation: grow the slot array while fewer than
`history_max` lines exist, overwrite the slot at `size mod max` (freeing
the evicted line), bump `size` and reset `current_line` to it.
Allocation failure is outside the model. -/
def history_add (st : HState) (l : List Int) : Int × HState :=
  let hist1 :=
    if st.history_size < st.history_max then st.history ++ [[]]
    else st.history
  let idx := (st.history_idx st.history_size).toNat
  (0, { st with history := hist1.set idx l,
                history_size := st.history_size + 1,
                current_line := st.history_size + 1 })

/-- The `ccli_history` accessor: NULL once `past` exceeds the size or
the capacity, otherwise the slot at `(size - past) mod max`.  With
`past ≤ 0` the C code still indexes the array; when that index is
outside the allocated part (only possible while `size < max`), the C
read is out of bounds and the model returns `none`. -/
def ccli_history (st : HState) (past : Int) : Option (List Int) :=
  if past > st.history_size ∨ past > st.history_max then none
  else
    let idx := (st.history_size - past).tmod st.history_max
    st.history.get? idx.toNat

/-- The `save_current` helper of the history navigation: a copy of the
edit buffer goes to the scratch slot when the user was on the line being
composed, and back into the ring slot being left otherwise. -/
def save_current (st : HState) (current : Int) : HState :=
  let str := cstring st.line.data
  if current ≥ st.history_size then { st with temp_line := some str }
  else { st with history := st.history.set (st.history_idx current).toNat str }

/-- The `history_up` operation: move `current_line` up by `cnt`, clamp
at 0 and at the oldest accessible entry `size - max + 1`; report 1 and
do nothing else when the position did not change; otherwise save the
displayed line (`save_current`), replace the edit buffer with the target
entry and report 0.  (`clear_line` only repaints and has no state.) -/
def history_up (st : HState) (cnt : Int) : Int × HState :=
  let current := st.current_line
  let cl1 := if st.current_line > cnt then st.current_line - cnt else 0
  let cl2 :=
    if st.history_size > st.history_max ∧
        cl1 ≤ st.history_size - st.history_max then
      st.history_size - st.history_max + 1
    else cl1
  let st0 := { st with current_line := cl2 }
  if current = cl2 then (1, st0)
  else
    let st1 := st0.save_current current
    let idx := (st1.history_idx cl2).toNat
    (0, { st1 with line := st1.line.line_replace (st1.history.getD idx []) })

/-- The `restore_current` helper: when a scratch line exists, put it
back into the edit buffer and drop it. -/
def restore_current (st : HState) : HState :=
  match st.temp_line with
  | some t => { st with line := st.line.line_replace t, temp_line := none }
  | none => st

/-- The `history_down` operation: move `current_line` down by `cnt`,
clamped at `size`; landing on `size` restores the scratch line and
reports 1; otherwise the displayed line is saved back into the ring slot
being left, the edit buffer is replaced with the target entry, and 0 is
reported. -/
def history_down (st : HState) (cnt : Int) : Int × HState :=
  let current := st.current_line
  let cl1 := st.current_line + cnt
  let cl2 := if cl1 > st.history_size then st.history_size else cl1
  let st0 := { st with current_line := cl2 }
  if cl2 = st.history_size then (1, st0.restore_current)
  else
    let str := cstring st0.line.data
    let st1 := { st0 with
      history := st0.history.set (st0.history_idx current).toNat str }
    let idx := (st1.history_idx cl2).toNat
    (0, { st1 with line := st1.line.line_replace (st1.history.getD idx []) })

/-- An empty history owning the given edit buffer (the state right after
`ccli_alloc`): no lines, default-shaped counters, capacity `max`. -/
def emptyH (max : Int) (lb : LineBuf) : HState :=
  { history := [], history_size := 0, history_max := max,
    current_line := 0, temp_line := none, line := lb }

/-- The state after adding the lines `ls` in order to an empty history
(the `history_add` calls the dispatch engine makes for submitted
lines). -/
def addAll (max : Int) (lb : LineBuf) (ls : List (List Int)) : HState :=
  ls.foldl (fun st l => (st.history_add l).2) (emptyH max lb)

end HState

/-- The `CCLI_NOSPACE` sentinel of `ccli.h`: a completion callback that
stores this byte as the match terminator asks for no delimiter to be
appended after a unique match. -/
def CCLI_NOSPACE : Int := 1

/-- The `match_chars` helper of the completion engine: the number of
leading bytes on which the two strings agree. -/
def match_chars : List Int → List Int → Nat
  | a :: as, b :: bs => if a = b then match_chars as bs + 1 else 0
  | _, _ => 0

/-- Result of `find_matches`: how many candidates carry the match as a
prefix, the index of the last of them, and the smallest number of
common leading bytes between the first of them and each other one ($-1$
when fewer than two matched).  When nothing matches, the C function
leaves `*last_match` uninitialised; the model reports 0 there, and no
caller looks at it in that case. -/
structure FindRes where
  matched : Nat
  last : Nat
  maxm : Int
  deriving Repr, DecidableEq

/-- The `find_matches` loop of the completion engine.  A candidate
matches when the match length is zero or its first `mlen` bytes equal
the match.  (The source also skips NULL entries left by failed
allocations; allocation failure is outside the model.) -/
def find_matches (mtch : List Int) (mlen : Nat) (list : List (List Int)) :
    FindRes :=
  let step := fun (st : Option Nat × FindRes) (p : Nat × List Int) =>
    if mlen = 0 ∨ p.2.take mlen = mtch.take mlen then
      match st.1 with
      | some m =>
          let x := (match_chars (list.getD m []) p.2 : Int)
          let maxm := if st.2.maxm < 0 ∨ x < st.2.maxm then x else st.2.maxm
          (some m, ⟨st.2.matched + 1, p.1, maxm⟩)
      | none => (some p.1, ⟨st.2.matched + 1, p.1, st.2.maxm⟩)
    else st
  (list.enum.foldl step (none, ⟨0, 0, -1⟩)).2

/-- C `strcmp` on byte strings without embedded NULs (all bytes of
interest are ASCII, so signedness does not matter): the sign of the
first differing position, a shorter string comparing below its
extensions. -/
def strcmp : List Int → List Int → Int
  | [], [] => 0
  | [], _ :: _ => -1
  | _ :: _, [] => 1
  | a :: as, b :: bs =>
      if a < b then -1 else if b < a then 1 else strcmp as bs

/-- Sorted insertion, the building block of the sort modelling `qsort`
below. -/
def sortedInsert (le : List Int → List Int → Bool) (a : List Int) :
    List (List Int) → List (List Int)
  | [] => [a]
  | b :: r => if le a b then a :: b :: r else b :: sortedInsert le a r

/-- Insertion sort.  `qsort` leaves the relative order of equal elements
unspecified; any comparison-respecting sort is a faithful model, and the
duplicate removal that follows makes the choice immaterial. -/
def qsortModel (le : List Int → List Int → Bool) :
    List (List Int) → List (List Int)
  | [] => []
  | a :: r => sortedInsert le a (qsortModel le r)

/-- The tail of the compaction loop of `sort_unique`: drop the entries
equal to the one last kept (later equal entries are freed). -/
def dedupAux (cur : List Int) : List (List Int) → List (List Int)
  | [] => []
  | b :: r => if b = cur then dedupAux cur r else b :: dedupAux b r

/-- Adjacent deduplication of a sorted list, as the compaction loop of
`sort_unique` performs it; the first entry of each run of equals is
kept. -/
def dedupSorted : List (List Int) → List (List Int)
  | [] => []
  | a :: r => a :: dedupAux a r

/-- The `sort_unique` pass of the completion engine: `qsort` under
`strcmp` (NULL entries, which cannot arise without allocation failure,
would sort last), then removal of duplicates.  The result is the sorted
duplicate-free list of candidates. -/
def sort_unique (list : List (List Int)) : List (List Int) :=
  dedupSorted (qsortModel (fun a b => strcmp a b ≤ 0) list)

/-- The `insert_word` helper: insert the bytes of a word at the cursor
one `line_insert` at a time. -/
def insert_word (line : LineBuf) (w : List Int) : LineBuf :=
  w.foldl (fun lb c => (lb.line_insert c).2) line

/-- One node of the completion table
(`struct ccli_completion_table`): an optional callback, optional
override data, and the child options. -/
inductive CompTable where
  | node (name : List Int) (completion : Option CompFn) (data : Option Nat)
      (options : List CompTable) : CompTable

/-- The fields of `struct ccli` that the completion engine reads: the
registry, the default completion, the completion table, the
`display_index` byte offset, whether the input is a tty and what the
window size query reported, whether a Ctrl-C is pending, and the bytes
the pagination prompt would read. -/
structure CState where
  commands : List Command
  default_completion : Option CompFn
  default_completion_data : Nat
  completion_table : Option CompTable
  completion_table_data : Nat
  display_index : Int
  in_tty : Bool
  win_ok : Bool
  win_cols : Nat
  win_rows : Nat
  ctrlc : Bool
  page_answers : List Int

/-- The `print_completion_flat` fallback: every candidate carrying the
match as a prefix is echoed (from byte `index` on) on its own line. -/
def print_completion_flat (mtch : List Int) (len : Nat)
    (strings : List (List Int)) (index : Nat) : List Int :=
  (strings.filterMap (fun s =>
    if s.take len = mtch.take len then some (s.drop index ++ [10]) else none)).flatten

/-- The line `page_stop` paints before reading the user's answer, and
the LF it echoes afterwards. -/
def page_stop_prompt : List Int :=
  ("--Type <RET> for more, q to quit, c to continue without paging--".toList.map
    (fun c => (c.toNat : Int)))

/-- One painted row of the multi-column listing: for every column whose
cell index `x * rows + i` is in range, two separating spaces (except in
the first column), the candidate from byte `index` on, and padding up to
`max_len`; then LF. -/
def printCompRow (mlist : List (List Int)) (index max_len rows nr i cols : Nat) :
    List Int :=
  ((List.range cols).filterMap (fun x =>
    let idx := x * rows + i
    if nr ≤ idx then none
    else
      let str := (mlist.getD idx []).drop index
      some ((if x ≠ 0 then [32, 32] else []) ++ str ++
        (if str.length < max_len then List.replicate (max_len - str.length) 32
         else [])))).flatten ++ [10]

/-- The row loop of `print_completion`: stop on a pending Ctrl-C; every
`win_rows - 1` rows ask `page_stop` (answer `q` aborts, `c` stops
paging, anything else shows another screen); paint each row in
column-major order; the first `Nat` argument counts the rows still to
paint. -/
def printCompLoop (mlist : List (List Int))
    (index max_len rows nr cols wrow : Nat) (ctrlc : Bool)
    (answers : List Int) : Nat → Nat → Bool → List Int
  | 0, _, _ => []
  | Nat.succ remaining, i, c =>
    if ctrlc then []
    else
      let ans := if ¬ c ∧ i ≠ 0 ∧ i % (wrow - 1) = 0 then
          some (answers.getD (i / (wrow - 1) - 1) 0) else none
      match ans with
      | some a =>
        if a = 113 then []
        else
          let c2 := if a = 99 then true else c
          page_stop_prompt ++ [10] ++
            printCompRow mlist index max_len rows nr i cols ++
            printCompLoop mlist index max_len rows nr cols wrow ctrlc answers
              remaining (i + 1) c2
      | none =>
          printCompRow mlist index max_len rows nr i cols ++
            printCompLoop mlist index max_len rows nr cols wrow ctrlc answers
              remaining (i + 1) c

/-- The `print_completion` function: clamp `display_index` to the match
length; fall back to the flat listing when the input is not a tty or the
window size query failed; otherwise keep the candidates carrying the
match as a prefix (in order), compute the longest candidate, derive the
column count from the window width and paint the matches column-major
with pagination. -/
def print_completion (st : CState) (mtch : List Int) (len : Nat)
    (strings : List (List Int)) (index0 : Nat) : List Int :=
  let index := if index0 > len then len else index0
  if ¬ st.in_tty ∨ ¬ st.win_ok then
    print_completion_flat mtch len strings index
  else
    let mlist := strings.filter (fun s => s.take len = mtch.take len)
    let max_len0 := mlist.foldl (fun m s => max m s.length) 0
    if max_len0 = 0 then []
    else
      let max_len := max_len0 - index
      let nr := mlist.length
      let cols0 := st.win_cols / (max_len + 2)
      let cols := if cols0 = 0 then 1 else cols0
      let rows := (nr + cols - 1) / cols
      printCompLoop mlist index max_len rows nr cols st.win_rows st.ctrlc
        st.page_answers rows 0 false

/-- The `reset_match` helper of `do_completion`: record the byte a
completion callback left at `match[mlen]` as the pending delimiter when
none was recorded yet (the match itself is restored to its saved copy,
which the model keeps immutable). -/
def reset_match (delim term : Int) : Int :=
  if delim = 0 then term else delim

/-- The descent loop of `do_completion_table`: follow the child whose
name equals `argv[i]` for `i` up to `word`, stopping early at the first
level with no matching child.  Returns the node reached and how many
levels were descended. -/
def tableWalk (argv : List (List Int)) (word : Nat) :
    CompTable → Nat → CompTable × Nat
  | t, i =>
    if h : i < word then
      match t with
      | CompTable.node _ _ _ options =>
        match options.find? (fun o =>
            match o with
            | CompTable.node nm _ _ _ => nm = argv.getD i []) with
        | some child => tableWalk argv word child (i + 1)
        | none => (t, i)
    else (t, i)
termination_by t i => word - i

/-- The `do_completion_table` step of `do_completion`: with no table
registered nothing happens; otherwise descend by the words before the
match, invoke the reached node's callback (its own data overriding the
registered table data), and, when the descent consumed exactly the words
before the match, add every child's name.  A non-positive local count
contributes nothing; otherwise the local list is appended to the main
one.  Returns the words to append, the count they add, and the byte the
callback left after the match. -/
def do_completion_table (st : CState) (argv : List (List Int)) (word : Nat)
    (copyLine : List Int) (mtch : List Int) :
    List (List Int) × Int × Int :=
  match st.completion_table with
  | none => ([], 0, 0)
  | some root =>
    let wi := tableWalk argv word root 0
    let cb :=
      match wi.1 with
      | CompTable.node _ completion data _ =>
        match completion with
        | some f =>
          let d := match data with
            | some d => d
            | none => st.completion_table_data
          let command := match argv with
            | [] => ([] : List Int)
            | a0 :: _ => a0
          f command copyLine (word : Int) mtch d
        | none => (⟨0, [], 0⟩ : CompResult)
    let withChildren :=
      if wi.2 = word then
        match wi.1 with
        | CompTable.node _ _ _ options =>
          (cb.items ++ options.map (fun o =>
            match o with
            | CompTable.node nm _ _ _ => nm),
           cb.ret + (options.length : Int))
      else (cb.items, cb.ret)
    if withChildren.2 ≤ 0 then ([], 0, cb.term)
    else (withChildren.1, withChildren.2, cb.term)

/-- The `do_completion` function of `complete.c`.  A working copy of the
line up to the cursor is tokenised; the word under completion and the
match are derived (an empty match when the cursor sits on whitespace);
the per-command completion (only past the first word), the default
completion (only when no per-command one fired), the completion table
and finally (for the first word) every registered command name feed the
candidate list; the list is sorted and deduplicated; a unique match has
its suffix and the delimiter inserted at the cursor, several matches
have their common prefix beyond the match inserted, and a repeated Tab
paints the match set.  Returns the updated state (its `display_index`
is reset), the updated edit buffer, and the bytes written to the output
pane (the completion listing; the repaints of the edit line itself,
pure display, are not modelled). -/
def do_completion (st : CState) (line : LineBuf) (tab : Int) :
    CState × LineBuf × List Int :=
  let copy := line.line_copy line.pos
  let copyLine := cstring copy.data
  let argv := ccli_line_parse copyLine
  let argc : Int := (argv.length : Int)
  let word0 : Int := argc - 1
  let onSpace : Bool := word0 < 0 ∨ ISSPACE (byteAt copy.data (copy.pos - 1))
  let word : Int := if onSpace then word0 + 1 else word0
  let save_match : List Int := if onSpace then [] else argv.getD word0.toNat []
  let mtch := save_match
  let mlen := mtch.length
  let cmd := if word ≠ 0 then find_command st.commands (argv.headD []) else none
  let r1 : CompResult :=
    match cmd with
    | some c =>
      match c.completion with
      | some f => f c.cmd copyLine word mtch c.data
      | none => ⟨0, [], 0⟩
    | none => ⟨0, [], 0⟩
  let cmdFired : Bool :=
    match cmd with
    | some c => c.completion.isSome
    | none => false
  let cnt1 : Int := if cmdFired then r1.ret else 0
  let list1 := r1.items
  let delim1 := reset_match 0 r1.term
  let r2 : CompResult :=
    match st.default_completion with
    | some f =>
      if cmdFired then ⟨0, [], 0⟩
      else f [] copyLine word mtch st.default_completion_data
    | none => ⟨0, [], 0⟩
  let defFired : Bool := !cmdFired && st.default_completion.isSome
  let cnt2 : Int := if defFired then r2.ret else cnt1
  let list2 := list1 ++ r2.items
  let delim2 := reset_match delim1 r2.term
  let tr := do_completion_table st argv word.toNat copyLine mtch
  let cnt3 : Int := cnt2 + tr.2.1
  let list3 := list2 ++ tr.1
  let delim3 := reset_match delim2 tr.2.2
  let list4 := if word = 0 then list3 ++ st.commands.map (fun c => c.cmd) else list3
  let cnt4 : Int := if word = 0 then cnt3 + (st.commands.length : Int) else cnt3
  let index := st.display_index
  let delim := if delim3 = 0 then 32 else delim3
  let stOut := { st with display_index := 0 }
  if cnt4 < 0 then (stOut, line, [])
  else
    let list5 := sort_unique list4
    let fm := find_matches mtch mlen list5
    let line1 :=
      if fm.matched = 1 then
        let lw := insert_word line ((list5.getD fm.last []).drop mlen)
        if delim ≠ CCLI_NOSPACE then (lw.line_insert delim).2 else lw
      else line
    let line2 :=
      if 1 < fm.matched ∧ (mlen : Int) < fm.maxm then
        insert_word line1 (((list5.getD fm.last []).drop mlen).take
          (fm.maxm - (mlen : Int)).toNat)
      else line1
    let out :=
      if tab ≠ 0 ∧ 1 < fm.matched then
        10 :: print_completion st mtch mlen list5 index.toNat
      else []
    (stOut, line2, out)

namespace LineBuf

lemma byteAt_of_nonneg (d : List Int) (i : Int) (h : 0 ≤ i) :
    byteAt d i = d.getD i.toNat 0 := by
  unfold byteAt
  rw [if_neg (by omega)]

lemma tail_zero_byteAt {l : LineBuf} (h : wf l) {i : Int} (h1 : l.len ≤ i) :
    byteAt l.data i = 0 := by
  obtain ⟨h0, _, h2, h3, h4, h5⟩ := h
  have hi0 : 0 ≤ i := by omega
  rw [byteAt_of_nonneg _ _ hi0, List.getD_eq_getElem?_getD]
  have hsplit : i.toNat = l.len.toNat + (i.toNat - l.len.toNat) := by omega
  rw [hsplit, ← List.getElem?_drop, h5, List.getElem?_replicate]
  by_cases hc : i.toNat - l.len.toNat < l.size.toNat - l.len.toNat <;> simp [hc]

lemma wf_inv {l : LineBuf} (h : wf l) : inv l :=
  ⟨h.1, h.2.1, h.2.2.1, h.2.2.2.1, tail_zero_byteAt h le_rfl⟩

lemma inv_line_left {l : LineBuf} (h : wf l) : inv (line_left l) := by
  have hv := wf_inv h
  unfold line_left
  obtain ⟨h1, h2, h3, h4, h5⟩ := hv
  by_cases hc : l.pos > l.start <;>
    simp only [hc, reduceIte, inv] <;>
    exact ⟨by omega, by omega, by omega, h4, h5⟩

lemma inv_line_right {l : LineBuf} (h : wf l) : inv (line_right l) := by
  have hv := wf_inv h
  unfold line_right
  obtain ⟨h1, h2, h3, h4, h5⟩ := hv
  by_cases hc : l.pos < l.len <;>
    simp only [hc, reduceIte, inv] <;>
    exact ⟨by omega, by omega, by omega, h4, h5⟩

lemma inv_line_home {l : LineBuf} (h : wf l) : inv (line_home l) := by
  have hv := wf_inv h
  obtain ⟨h1, h2, h3, h4, h5⟩ := hv
  simp only [line_home, inv]
  exact ⟨h1, le_rfl, by omega, h4, h5⟩

lemma inv_line_end {l : LineBuf} (h : wf l) : inv (line_end l) := by
  have hv := wf_inv h
  obtain ⟨h1, h2, h3, h4, h5⟩ := hv
  simp only [line_end, inv]
  exact ⟨h1, by omega, le_rfl, h4, h5⟩

lemma getD_append_ge {α : Type} (A B : List α) (n : Nat) (d : α)
    (h : A.length ≤ n) : (A ++ B).getD n d = B.getD (n - A.length) d := by
  rw [List.getD_eq_getElem?_getD, List.getD_eq_getElem?_getD,
    List.getElem?_append, if_neg (by omega)]

lemma getD_append_lt {α : Type} (A B : List α) (n : Nat) (d : α)
    (h : n < A.length) : (A ++ B).getD n d = A.getD n d := by
  rw [List.getD_eq_getElem?_getD, List.getD_eq_getElem?_getD,
    List.getElem?_append, if_pos h]

lemma getD_drop {α : Type} (l : List α) (i j : Nat) (d : α) :
    (l.drop i).getD j d = l.getD (i + j) d := by
  rw [List.getD_eq_getElem?_getD, List.getD_eq_getElem?_getD,
    List.getElem?_drop]

lemma getD_replicate_zero (n j : Nat) :
    (List.replicate n (0 : Int)).getD j 0 = 0 := by
  rw [List.getD_eq_getElem?_getD, List.getElem?_replicate]
  split <;> simp

lemma byteAt_setAt_self (d : List Int) (i v : Int) (h0 : 0 ≤ i)
    (h : i.toNat < d.length) : byteAt (setAt d i v) i = v := by
  unfold byteAt setAt
  rw [if_neg (by omega), if_neg (by omega), List.getD_eq_getElem?_getD,
    List.getElem?_set_self (by simpa using h)]
  rfl

lemma byteAt_setAt_ne (d : List Int) (i j v : Int) (h0 : 0 ≤ j)
    (h : i ≠ j) : byteAt (setAt d i v) j = byteAt d j := by
  unfold byteAt setAt
  by_cases hi : i < 0
  · rw [if_pos hi]
  · rw [if_neg hi, if_neg (by omega), if_neg (by omega),
      List.getD_eq_getElem?_getD, List.getD_eq_getElem?_getD,
      List.getElem?_set_ne (by omega)]

lemma inv_line_backspace {l : LineBuf} (h : wf l) : inv (line_backspace l) := by
  have hwf := h
  obtain ⟨h1, h2, h3, h4, h5, h6⟩ := h
  unfold line_backspace
  by_cases hc : l.pos = l.start
  · rw [if_pos hc]
    exact wf_inv hwf
  · rw [if_neg hc]
    simp only [inv]
    have hlen : (l.data.take (l.pos - 1).toNat ++
        (l.data.drop l.pos.toNat).take (l.len - l.pos).toNat ++
        l.data.drop ((l.pos - 1).toNat + (l.len - l.pos).toNat)).length
        = l.size.toNat := by
      simp only [List.length_append, List.length_take, List.length_drop, h5]
      omega
    refine ⟨h1, by omega, by omega, by omega, ?_⟩
    exact byteAt_setAt_self _ _ _ (by omega) (by rw [hlen]; omega)

lemma inv_line_del {l : LineBuf} (h : wf l) : inv (line_del l) := by
  have hwf := h
  obtain ⟨h1, h2, h3, h4, h5, h6⟩ := h
  unfold line_del
  by_cases hc : l.pos = l.len
  · rw [if_pos hc]
    exact wf_inv hwf
  · rw [if_neg hc]
    simp only [inv]
    have hlen : (l.data.take l.pos.toNat ++
        (l.data.drop (l.pos.toNat + 1)).take (l.len - l.pos).toNat ++
        l.data.drop (l.pos.toNat + (l.len - l.pos).toNat)).length
        = l.size.toNat := by
      simp only [List.length_append, List.length_take, List.length_drop, h5]
      omega
    refine ⟨h1, h2, by omega, by omega, ?_⟩
    exact byteAt_setAt_self _ _ _ (by omega) (by rw [hlen]; omega)

lemma inv_line_insert_newline {l : LineBuf} (h : wf l) :
    inv (line_insert l CHAR_NEWLINE).2 := by
  have hwf := h
  obtain ⟨h1, h2, h3, h4, h5, h6⟩ := h
  unfold line_insert
  rw [if_pos rfl]
  by_cases hc : l.len = 0 ∨ byteAt l.data (l.len - 1) ≠ 92
  · rw [if_pos hc]
    exact wf_inv hwf
  · rw [if_neg hc]
    simp only [inv]
    refine ⟨by omega, le_rfl, le_rfl, by omega, ?_⟩
    exact byteAt_setAt_self _ _ _ (by omega) (by rw [h5]; omega)

lemma line_insert_printable {l : LineBuf} (h : wf l) {ch : Int}
    (hch : isprint ch = true) :
    (0 ≤ (line_insert l ch).2.start ∧
     (line_insert l ch).2.start ≤ (line_insert l ch).2.pos ∧
     (line_insert l ch).2.pos ≤ (line_insert l ch).2.len ∧
     (line_insert l ch).2.len ≤ (line_insert l ch).2.size) ∧
    (l.len + 1 < l.size → inv (line_insert l ch).2) := by
  have hwf := h
  obtain ⟨h1, h2, h3, h4, h5, h6⟩ := h
  have hne : ¬ ch = CHAR_NEWLINE := by
    unfold isprint at hch
    unfold CHAR_NEWLINE
    intro hx
    rw [hx] at hch
    simp at hch
  unfold line_insert
  rw [if_neg hne, if_neg (by omega)]
  dsimp only
  by_cases hc : l.pos < l.len
  · rw [if_pos hc]
    have hAB : (l.data.take (l.pos.toNat + 1) ++
        (l.data.drop l.pos.toNat).take (l.len - l.pos).toNat).length
        = l.len.toNat + 1 := by
      simp only [List.length_append, List.length_take, List.length_drop, h5]
      omega
    refine ⟨⟨h1, by omega, by omega, by omega⟩, fun hroom => ?_⟩
    simp only [inv]
    refine ⟨h1, by omega, by omega, by omega, ?_⟩
    rw [byteAt_setAt_ne _ _ _ _ (by omega) (by omega),
      byteAt_of_nonneg _ _ (by omega)]
    rw [getD_append_ge _ _ _ 0 (by rw [hAB]; omega)]
    rw [hAB, getD_drop]
    have hidx : l.len.toNat + 1 + ((l.len + 1).toNat - (l.len.toNat + 1))
        = (l.len + 1).toNat := by omega
    rw [hidx, ← byteAt_of_nonneg _ _ (by omega)]
    exact tail_zero_byteAt hwf (by omega)
  · rw [if_neg hc]
    refine ⟨⟨h1, by omega, by omega, by omega⟩, fun hroom => ?_⟩
    simp only [inv]
    refine ⟨h1, by omega, by omega, by omega, ?_⟩
    rw [byteAt_setAt_ne _ _ _ _ (by omega) (by omega)]
    exact tail_zero_byteAt hwf (by omega)

lemma line_replace_spec {l : LineBuf} (h : wf l) (str : List Int) :
    0 ≤ (line_replace l str).pos ∧
    (line_replace l str).pos = (line_replace l str).len ∧
    (line_replace l str).len < (line_replace l str).size ∧
    byteAt (line_replace l str).data (line_replace l str).len = 0 ∧
    (l.start ≤ (line_replace l str).len → inv (line_replace l str)) := by
  have hwf := h
  obtain ⟨h1, h2, h3, h4, h5, h6⟩ := h
  unfold line_replace
  set n : Int := if (str.length : Int) ≥ l.size then l.size - 1 else str.length with hn
  have hn0 : 0 ≤ n := by
    rw [hn]; split <;> omega
  have hnlt : n < l.size := by
    rw [hn]; split <;> omega
  have hnstr : n ≤ (str.length : Int) := by
    rw [hn]; split <;> omega
  have hdlen : (str.take n.toNat ++ l.data.drop n.toNat).length = l.size.toNat := by
    simp only [List.length_append, List.length_take, List.length_drop, h5]
    omega
  by_cases hc : n < l.len
  · simp only [hc, reduceIte, inv]
    have hzero : byteAt (List.take n.toNat (str.take n.toNat ++ l.data.drop n.toNat) ++
        List.replicate (l.len - n).toNat 0 ++
        List.drop l.len.toNat (str.take n.toNat ++ l.data.drop n.toNat)) n = 0 := by
      rw [byteAt_of_nonneg _ _ hn0]
      rw [getD_append_lt _ _ _ 0
        (by simp only [List.length_append, List.length_take, List.length_replicate, hdlen]; omega)]
      rw [getD_append_ge _ _ _ 0 (by simp only [List.length_take, hdlen]; omega)]
      rw [List.length_take, hdlen]
      exact getD_replicate_zero _ _
    exact ⟨hn0, trivial, hnlt, hzero, fun hs => ⟨h1, hs, le_rfl, hnlt, hzero⟩⟩
  · simp only [hc, reduceIte, inv]
    have hzero : byteAt (str.take n.toNat ++ l.data.drop n.toNat) n = 0 := by
      rw [byteAt_of_nonneg _ _ hn0]
      rw [getD_append_ge _ _ _ 0 (by simp only [List.length_take]; omega)]
      rw [List.length_take, getD_drop]
      have hix : n.toNat + (n.toNat - min n.toNat str.length) = n.toNat := by omega
      rw [hix, ← byteAt_of_nonneg _ _ hn0]
      exact tail_zero_byteAt hwf (by omega)
    exact ⟨hn0, trivial, hnlt, hzero, fun hs => ⟨h1, hs, le_rfl, hnlt, hzero⟩⟩

lemma leftWordSkipPunct_spec (d : List Int) (start : Int) :
    ∀ (fuel : Nat) (pos : Int), fuel = (pos - start).toNat + 1 → start < pos →
      start - 1 ≤ leftWordSkipPunct d start fuel pos ∧
      leftWordSkipPunct d start fuel pos ≤ pos - 1 ∧
      (isalnum (byteAt d (leftWordSkipPunct d start fuel pos)) = true ∨
        leftWordSkipPunct d start fuel pos ≤ start - 1) := by
  intro fuel
  induction fuel with
  | zero => omega
  | succ fuel ih =>
    intro pos hk hlt
    rw [leftWordSkipPunct, if_pos hlt]
    by_cases ha : isalnum (byteAt d (pos - 1)) = true
    · rw [if_pos ha]
      exact ⟨by omega, by omega, Or.inl ha⟩
    · rw [if_neg ha]
      by_cases hbase : start < pos - 1
      · have hrec := ih (pos - 1) (by omega) hbase
        exact ⟨hrec.1, by omega, hrec.2.2⟩
      · have hf1 : fuel = 1 := by omega
        have hstep : leftWordSkipPunct d start fuel (pos - 1) = pos - 1 - 1 := by
          rw [hf1, leftWordSkipPunct, if_neg (by omega)]
        rw [hstep]
        exact ⟨by omega, by omega, Or.inr (by omega)⟩

lemma leftWordSkipAlnum_spec (d : List Int) (start : Int) :
    ∀ (fuel : Nat) (pos : Int), fuel = (pos - start).toNat + 1 →
      min start pos ≤ leftWordSkipAlnum d start fuel pos ∧
      leftWordSkipAlnum d start fuel pos ≤ pos := by
  intro fuel
  induction fuel with
  | zero => omega
  | succ fuel ih =>
    intro pos hk
    rw [leftWordSkipAlnum]
    by_cases hc : pos > start ∧ isalnum (byteAt d pos) = true
    · rw [if_pos hc]
      have hrec := ih (pos - 1) (by omega)
      constructor
      · have := hrec.1
        omega
      · have := hrec.2
        omega
    · rw [if_neg hc]
      exact ⟨by omega, le_rfl⟩

lemma line_left_word_pos {l : LineBuf} (h0 : 0 ≤ l.start) (h : l.start < l.pos) :
    0 ≤ (line_left_word l).pos ∧ (line_left_word l).pos < l.pos := by
  unfold line_left_word
  dsimp only
  have h1 := leftWordSkipPunct_spec l.data l.start ((l.pos - l.start).toNat + 1)
    l.pos rfl h
  set p1 := leftWordSkipPunct l.data l.start ((l.pos - l.start).toNat + 1) l.pos
    with hp1
  have h2 := leftWordSkipAlnum_spec l.data l.start ((p1 - l.start).toNat + 1) p1 rfl
  set p2 := leftWordSkipAlnum l.data l.start ((p1 - l.start).toNat + 1) p1 with hp2
  by_cases ha : isalnum (byteAt l.data p2) = true
  · rw [if_pos ha]
    have hnn : 0 ≤ p2 := by
      by_contra hneg
      have hz : byteAt l.data p2 = 0 := by
        unfold byteAt
        rw [if_pos (by omega)]
      rw [hz] at ha
      simp [isalnum] at ha
    exact ⟨hnn, by omega⟩
  · rw [if_neg ha]
    refine ⟨by omega, ?_⟩
    by_cases hq : p2 = l.pos - 1
    · exfalso
      have hr1 : p1 = l.pos - 1 := by omega
      rcases h1.2.2 with hal | hle
      · apply ha
        rw [hq, ← hr1]
        exact hal
      · omega
    · omega

lemma del_words_spec {l : LineBuf} (h : wf l) (p : Int) (hp0 : 0 ≤ p)
    (hplt : p < l.pos) :
    0 ≤ (del_words { l with pos := p } l.pos).2.pos ∧
    (del_words { l with pos := p } l.pos).2.pos ≤ (del_words { l with pos := p } l.pos).2.len ∧
    (del_words { l with pos := p } l.pos).2.len < (del_words { l with pos := p } l.pos).2.size ∧
    byteAt (del_words { l with pos := p } l.pos).2.data (del_words { l with pos := p } l.pos).2.len = 0 ∧
    (del_words { l with pos := p } l.pos).2.start = l.start ∧
    (del_words { l with pos := p } l.pos).2.pos = p := by
  obtain ⟨h1, h2, h3, h4, h5, h6⟩ := h
  unfold del_words
  dsimp only
  have hdlen : (l.data.take p.toNat ++
      (l.data.drop l.pos.toNat).take (l.len - l.pos).toNat ++
      l.data.drop (p.toNat + (l.len - l.pos).toNat)).length = l.size.toNat := by
    simp only [List.length_append, List.length_take, List.length_drop, h5]
    omega
  refine ⟨hp0, by omega, by omega, ?_, rfl, rfl⟩
  rw [byteAt_of_nonneg _ _ (by omega)]
  rw [getD_append_lt _ _ _ 0 (by
    simp only [List.length_append, List.length_take, List.length_replicate, hdlen]
    omega)]
  rw [getD_append_ge _ _ _ 0 (by
    simp only [List.length_take, hdlen]
    omega)]
  rw [List.length_take, hdlen]
  exact getD_replicate_zero _ _

lemma line_del_word_spec {l : LineBuf} (h : wf l) :
    0 ≤ (line_del_word l).2.pos ∧
    (line_del_word l).2.pos ≤ (line_del_word l).2.len ∧
    (line_del_word l).2.len < (line_del_word l).2.size ∧
    byteAt (line_del_word l).2.data (line_del_word l).2.len = 0 := by
  have hwf := h
  obtain ⟨h1, h2, h3, h4, h5, h6⟩ := h
  unfold line_del_word
  by_cases hc : l.pos = l.start
  · rw [if_pos hc]
    have hv := wf_inv hwf
    exact ⟨(by omega : (0 : Int) ≤ l.pos), hv.2.2.1, hv.2.2.2.1, hv.2.2.2.2⟩
  · rw [if_neg hc]
    dsimp only
    have hlw := line_left_word_pos h1 (by omega)
    have heq : line_left_word l = { l with pos := (line_left_word l).pos } := by
      unfold line_left_word
      rfl
    rw [heq]
    have := del_words_spec hwf (line_left_word l).pos hlw.1 hlw.2
    exact ⟨this.1, this.2.1, this.2.2.1, this.2.2.2.1⟩

lemma inv_line_del_beginning {l : LineBuf} (h : wf l) :
    inv (line_del_beginning l).2 := by
  have hwf := h
  obtain ⟨h1, h2, h3, h4, h5, h6⟩ := h
  unfold line_del_beginning
  by_cases hc : l.pos = l.start
  · rw [if_pos hc]
    exact wf_inv hwf
  · rw [if_neg hc]
    dsimp only
    have heq : line_home l = { l with pos := l.start } := rfl
    rw [heq]
    have hs := del_words_spec hwf l.start h1 (by omega)
    refine ⟨?_, ?_, hs.2.1, hs.2.2.1, hs.2.2.2.1⟩
    · rw [hs.2.2.2.2.1]
      exact h1
    · rw [hs.2.2.2.2.1, hs.2.2.2.2.2]

lemma inv_line_reset {l : LineBuf} (h : wf l) : inv (line_reset l) := by
  obtain ⟨h1, h2, h3, h4, h5, h6⟩ := h
  simp only [line_reset, inv]
  refine ⟨le_rfl, le_rfl, le_rfl, by omega, ?_⟩
  rw [byteAt_of_nonneg _ _ le_rfl, List.getD_eq_getElem?_getD,
    List.getElem?_replicate]
  split <;> simp

end LineBuf

namespace HState

lemma addAll_append (max : Int) (lb : LineBuf) (ls : List (List Int))
    (l : List Int) :
    addAll max lb (ls ++ [l]) = ((addAll max lb ls).history_add l).2 := by
  unfold addAll
  rw [List.foldl_append]
  rfl

lemma addAll_shape (max : Int) (lb : LineBuf) (hmax : 1 ≤ max) :
    ∀ ls : List (List Int),
      (addAll max lb ls).history_size = (ls.length : Int) ∧
      (addAll max lb ls).history_max = max ∧
      ((addAll max lb ls).history.length : Int) = min (ls.length : Int) max := by
  intro ls
  induction ls using List.reverseRecOn with
  | nil =>
    refine ⟨rfl, rfl, ?_⟩
    simp [addAll, emptyH]
    omega
  | append_singleton ls l ih =>
    obtain ⟨hsz, hmx, hlen⟩ := ih
    rw [addAll_append]
    unfold history_add
    dsimp only
    simp only [hsz, hmx, List.length_set, List.length_append, List.length_singleton]
    refine ⟨by push_cast; omega, by trivial, ?_⟩
    by_cases hc : (ls.length : Int) < max
    · rw [if_pos hc]
      simp only [List.length_append, List.length_singleton]
      push_cast
      push_cast at hlen
      omega
    · rw [if_neg hc]
      push_cast
      push_cast at hlen
      omega

lemma ccli_history_addAll (max : Int) (lb : LineBuf) (hmax : 1 ≤ max) :
    ∀ (ls : List (List Int)) (past : Int), 1 ≤ past →
      past ≤ (ls.length : Int) → past ≤ max →
      ccli_history (addAll max lb ls) past =
        some (ls.getD (ls.length - past.toNat) []) := by
  intro ls
  induction ls using List.reverseRecOn with
  | nil =>
    intro past h1 h2 h3
    exfalso
    simp only [List.length_nil, Nat.cast_zero] at h2
    omega
  | append_singleton ls l ih =>
    intro past h1 h2 h3
    obtain ⟨hsz, hmx, hlen⟩ := addAll_shape max lb hmax ls
    have hL2 : past ≤ (ls.length : Int) + 1 := by
      simp only [List.length_append, List.length_singleton] at h2
      push_cast at h2
      omega
    rw [addAll_append]
    unfold history_add ccli_history history_idx
    dsimp only
    simp only [hsz, hmx]
    rw [if_neg (by push_cast; omega)]
    have hszn : 0 ≤ (ls.length : Int) := by positivity
    have htm : ((ls.length : Int)).tmod max = (ls.length : Int) % max :=
      Int.tmod_eq_emod hszn (by omega)
    have htm2 : ((ls.length : Int) + 1 - past).tmod max =
        ((ls.length : Int) + 1 - past) % max :=
      Int.tmod_eq_emod (by omega) (by omega)
    rw [htm, htm2]
    have ha0 : 0 ≤ ((ls.length : Int) + 1 - past) % max :=
      Int.emod_nonneg _ (by omega)
    have hb0 : 0 ≤ (ls.length : Int) % max := Int.emod_nonneg _ (by omega)
    have hblt : (ls.length : Int) % max < max := Int.emod_lt_of_pos _ (by omega)
    have halt : ((ls.length : Int) + 1 - past) % max < max :=
      Int.emod_lt_of_pos _ (by omega)
    by_cases hp1 : past = 1
    · subst hp1
      rw [show ((ls.length : Int) + 1 - 1) = (ls.length : Int) by ring]
      have hbound : ((ls.length : Int) % max).toNat <
          (if (ls.length : Int) < max then (addAll max lb ls).history ++ [[]]
           else (addAll max lb ls).history).length := by
        by_cases hc : (ls.length : Int) < max
        · rw [if_pos hc, Int.emod_eq_of_lt hszn hc]
          simp only [List.length_append, List.length_singleton]
          omega
        · rw [if_neg hc]
          omega
      rw [List.get?_eq_getElem?, List.getElem?_set_self hbound]
      have hr : (ls ++ [l]).getD ((ls ++ [l]).length - (1 : Int).toNat) [] = l := by
        simp only [List.length_append, List.length_singleton]
        rw [show ls.length + 1 - (1 : Int).toNat = ls.length by omega]
        rw [List.getD_eq_getElem?_getD, List.getElem?_append_right le_rfl]
        simp
      rw [hr]
    · have hp2 : 2 ≤ past := by omega
      have hneI : ((ls.length : Int) + 1 - past) % max ≠ (ls.length : Int) % max := by
        intro heq
        rw [Int.emod_eq_emod_iff_emod_sub_eq_zero] at heq
        have hd : max ∣ ((ls.length : Int) + 1 - past - (ls.length : Int)) :=
          Int.dvd_of_emod_eq_zero heq
        have hd2 : max ∣ (past - 1) := by
          have : ((ls.length : Int) + 1 - past - (ls.length : Int)) = -(past - 1) := by
            ring
          rw [this] at hd
          exact (dvd_neg).mp hd
        have := Int.le_of_dvd (by omega) hd2
        omega
      rw [List.get?_eq_getElem?, List.getElem?_set_ne (by omega)]
      have hstep : (if (ls.length : Int) < max then
            (addAll max lb ls).history ++ [[]]
          else (addAll max lb ls).history)[(((ls.length : Int) + 1 - past) % max).toNat]?
          = (addAll max lb ls).history[(((ls.length : Int) + 1 - past) % max).toNat]? := by
        by_cases hc : (ls.length : Int) < max
        · rw [if_pos hc, List.getElem?_append, if_pos ?hin]
          case hin =>
            have : ((ls.length : Int) + 1 - past) % max = (ls.length : Int) + 1 - past :=
              Int.emod_eq_of_lt (by omega) (by omega)
            rw [this]
            omega
        · rw [if_neg hc]
      rw [hstep]
      have hCH := ih (past - 1) (by omega) (by omega) (by omega)
      unfold ccli_history at hCH
      rw [if_neg (by simp only [hsz, hmx]; omega)] at hCH
      simp only [hsz, hmx] at hCH
      rw [show ((ls.length : Int) - (past - 1)) = (ls.length : Int) + 1 - past by ring,
        Int.tmod_eq_emod (by omega) (by omega), List.get?_eq_getElem?] at hCH
      rw [hCH]
      rw [List.getD_eq_getElem?_getD, List.getD_eq_getElem?_getD]
      simp only [List.length_append, List.length_singleton]
      rw [List.getElem?_append, if_pos (by omega)]
      rw [show ls.length + 1 - past.toNat = ls.length - (past - 1).toNat by omega]

lemma history_up_ret (st : HState) (cnt : Int) :
    ((history_up st cnt).1 = 1 ∨ (history_up st cnt).1 = 0) ∧
    ((history_up st cnt).1 = 1 ↔ (history_up st cnt).2 = st) ∧
    ((history_up st cnt).1 = 0 →
      (history_up st cnt).2.current_line ≠ st.current_line) := by
  unfold history_up save_current history_idx
  dsimp only
  generalize (if st.history_size > st.history_max ∧
      (if st.current_line > cnt then st.current_line - cnt else 0) ≤
        st.history_size - st.history_max then
      st.history_size - st.history_max + 1
    else if st.current_line > cnt then st.current_line - cnt else 0) = c2
  by_cases h : st.current_line = c2
  · rw [if_pos h]
    refine ⟨Or.inl rfl, ⟨fun _ => ?_, fun _ => rfl⟩,
      fun h10 => absurd h10 (by norm_num)⟩
    rw [← h]
  · rw [if_neg h]
    refine ⟨Or.inr rfl, ⟨fun h01 => absurd h01 (by norm_num), fun hst => ?_⟩,
      fun _ => ?_⟩
    · have hcl := congrArg HState.current_line hst
      simp only [apply_ite HState.current_line, ite_self] at hcl
      exact (h hcl.symm).elim
    · intro hx
      have hcl := hx
      simp only [apply_ite HState.current_line, ite_self] at hcl
      exact h hcl.symm

lemma history_down_ret (st : HState) (cnt : Int) (h3 : 1 ≤ cnt) :
    ((history_down st cnt).1 = 1 ∨ (history_down st cnt).1 = 0) ∧
    ((history_down st cnt).1 = 1 ↔
      (history_down st cnt).2.current_line = st.history_size) ∧
    ((history_down st cnt).1 = 0 →
      (history_down st cnt).2.current_line ≠ st.current_line) ∧
    (st.current_line ≠ st.history_size →
      (history_down st cnt).2.current_line ≠ st.current_line) := by
  unfold history_down restore_current history_idx
  dsimp only
  generalize hc : (if st.current_line + cnt > st.history_size then st.history_size
    else st.current_line + cnt) = c2
  have hor : c2 = st.history_size ∨ c2 = st.current_line + cnt := by
    rw [← hc]
    by_cases hcl : st.current_line + cnt > st.history_size
    · exact Or.inl (if_pos hcl)
    · exact Or.inr (if_neg hcl)
  by_cases hq : c2 = st.history_size
  · rw [if_pos hq]
    refine ⟨Or.inl rfl, ⟨fun _ => ?_, fun _ => rfl⟩,
      fun h10 => absurd h10 (by norm_num), fun hne => ?_⟩
    · dsimp only
      cases htmp : st.temp_line
      · exact hq
      · exact hq
    · dsimp only
      cases htmp : st.temp_line
      · show c2 ≠ st.current_line
        rw [hq]
        exact fun hx => hne hx.symm
      · show c2 ≠ st.current_line
        rw [hq]
        exact fun hx => hne hx.symm
  · rw [if_neg hq]
    have hc2 : c2 = st.current_line + cnt := by
      rcases hor with h1 | h1
      · exact absurd h1 hq
      · exact h1
    refine ⟨Or.inr rfl, ⟨fun h01 => absurd h01 (by norm_num), fun hcl => ?_⟩,
      fun _ => ?_, fun _ => ?_⟩
    · exact absurd hcl hq
    · dsimp only
      omega
    · dsimp only
      omega

end HState

/- ===== claim theorems ===== -/

section RegistryLemmas

lemma findIdx?_some_spec {α : Type} {p : α → Bool} {l : List α} {i : Nat}
    (h : l.findIdx? p = some i) :
    ∃ hl : i < l.length, p (l.get ⟨i, hl⟩) = true := by
  rw [List.findIdx?_eq_some_iff_findIdx_eq] at h
  obtain ⟨hlt, hfi⟩ := h
  refine ⟨hlt, ?_⟩
  have hw : List.findIdx p l < l.length := by rw [hfi]; exact hlt
  have hg := @List.findIdx_getElem _ p l hw
  rw [List.get_eq_getElem]
  simp only [hfi] at hg
  exact hg

lemma modifyIdx_eq_set {α : Type} (f : α → α) (l : List α) :
    ∀ (i : Nat) (hi : i < l.length),
      modifyIdx f i l = l.set i (f (l.get ⟨i, hi⟩)) := by
  induction l with
  | nil => intro i hi; exact absurd hi (by simp)
  | cons a t ih =>
    intro i hi
    cases i with
    | zero => rfl
    | succ n =>
      have hn : n < t.length := by simpa using hi
      calc modifyIdx f (n + 1) (a :: t) = a :: modifyIdx f n t := rfl
        _ = a :: t.set n (f (t.get ⟨n, hn⟩)) := by rw [ih n hn]
        _ = (a :: t).set (n + 1) (f ((a :: t).get ⟨n + 1, hi⟩)) := rfl

lemma findIdx?_set_preserve {α : Type} {p : α → Bool} {x : α} (hx : p x = true) :
    ∀ (l : List α) (i : Nat), l.findIdx? p = some i →
      (l.set i x).findIdx? p = some i := by
  intro l
  induction l with
  | nil => intro i h; rw [List.findIdx?_nil] at h; cases h
  | cons a t ih =>
    intro i h
    rw [List.findIdx?_cons] at h
    by_cases hpa : p a = true
    · rw [if_pos hpa] at h
      cases h
      rw [List.set_cons_zero, List.findIdx?_cons, if_pos hx]
    · rw [if_neg hpa] at h
      rw [List.findIdx?_succ] at h
      obtain ⟨i', hi', hadd⟩ := Option.map_eq_some'.mp h
      subst hadd
      rw [List.set_cons_succ, List.findIdx?_cons, if_neg hpa,
        List.findIdx?_succ, ih i' hi']
      rfl

lemma set_get_self {α : Type} (l : List α) :
    ∀ (i : Nat) (h : i < l.length), l.set i (l.get ⟨i, h⟩) = l := by
  induction l with
  | nil => intro i h; simp at h
  | cons a t ih =>
    intro i h
    cases i with
    | zero => rfl
    | succ n =>
      have hn : n < t.length := by simpa using h
      calc (a :: t).set (n + 1) ((a :: t).get ⟨n + 1, h⟩)
          = a :: t.set n (t.get ⟨n, hn⟩) := rfl
        _ = a :: t := by rw [ih n hn]

lemma register_command_found {cmds : List Command} {name : List Int}
    {cb d : Nat} {i : Nat} (h : find_command_idx cmds name = some i) :
    ccli_register_command cmds name cb d =
      (0, modifyIdx (fun c => { c with callback := cb, data := d }) i cmds) := by
  unfold ccli_register_command
  rw [h]

lemma register_command_fresh {cmds : List Command} {name : List Int}
    {cb d : Nat} (h : find_command_idx cmds name = none) :
    ccli_register_command cmds name cb d =
      (0, cmds ++ [{ cmd := name, callback := cb, completion := none,
                     data := d }]) := by
  unfold ccli_register_command
  rw [h]

lemma register_alias_found {al : List Alias} {name command : List Int}
    {i : Nat} (hcmd : command.length ≠ 0)
    (h : find_alias_idx al name = some i) :
    ccli_register_alias al name command =
      (0, modifyIdx (fun a => { a with command := command }) i al) := by
  unfold ccli_register_alias
  rw [if_neg hcmd, h]

end RegistryLemmas

section CacheLemmas

end CacheLemmas

section Claims

open LineBuf HState

/-- Claim C1, as stated, is false: on well-formed buffers the invariant
`0 ≤ start ≤ pos ≤ len < capacity` with a NUL at offset `len` is broken
by three of the listed operations.  Inserting the printable byte `b` into
a full-but-one buffer leaves `len = capacity` with no NUL terminator
inside the allocation; `replace` with a string shorter than `start`
leaves `pos = len < start`; `delete_word` from a continuation whose
editable bytes are all non-alphanumeric walks `pos` across `start` (the
word scan runs into the read-only prefix), leaving `pos < start`. -/
theorem C1_counterexample :
    (wf ⟨[97, 0], 2, 1, 1, 0⟩ ∧
      ¬ inv (line_insert ⟨[97, 0], 2, 1, 1, 0⟩ 98).2) ∧
    (wf ⟨[97, 98, 99, 100, 0, 0, 0, 0], 8, 4, 4, 3⟩ ∧
      ¬ inv (line_replace ⟨[97, 98, 99, 100, 0, 0, 0, 0], 8, 4, 4, 3⟩ [120])) ∧
    (wf ⟨[97, 98, 99, 32, 32, 0, 0, 0], 8, 5, 5, 3⟩ ∧
      ¬ inv (line_del_word ⟨[97, 98, 99, 32, 32, 0, 0, 0], 8, 5, 5, 3⟩).2) := by
  decide

/-- Claim C1 (amended).  On a well-formed buffer, the operations left,
right, home, end, backspace, delete, delete-to-start, reset and insert
of the continuation sentinel re-establish
`0 ≤ start ≤ pos ≤ len < capacity` with a NUL byte at offset `len`.
Insert of a printable byte guarantees `0 ≤ start ≤ pos ≤ len ≤ capacity`
and the full invariant whenever a byte of room remains
(`len + 1 < capacity`); replace guarantees `0 ≤ pos = len < capacity`
with a NUL at `len`, and the full invariant whenever the truncated
replacement is at least `start` bytes long; delete-word guarantees
`0 ≤ pos ≤ len < capacity` with a NUL at `len` (but may leave
`pos < start`). -/
theorem C1_line_buffer_invariant (l : LineBuf) (h : wf l) (ch : Int)
    (hch : isprint ch = true) (str : List Int) : lineOpsPost l ch str := by
  have hip := line_insert_printable h hch
  have hrep := line_replace_spec h str
  have hdw := line_del_word_spec h
  exact ⟨inv_line_insert_newline h, inv_line_left h, inv_line_right h,
    inv_line_home h, inv_line_end h, inv_line_backspace h, inv_line_del h,
    inv_line_del_beginning h, inv_line_reset h, hip.1, hip.2,
    ⟨hrep.1, hrep.2.1, hrep.2.2.1, hrep.2.2.2.1⟩, hrep.2.2.2.2, hdw⟩

/-- Witness for C1 (amended): a concrete well-formed buffer holding
`a`, the printable byte `b` and the replacement `c` discharge the
hypotheses. -/
theorem C1_line_buffer_invariant_witness :
    wf ⟨[97, 0, 0, 0], 4, 1, 1, 0⟩ ∧ isprint 98 = true ∧
    lineOpsPost ⟨[97, 0, 0, 0], 4, 1, 1, 0⟩ 98 [99] :=
  ⟨by decide, by decide,
    C1_line_buffer_invariant ⟨[97, 0, 0, 0], 4, 1, 1, 0⟩ (by decide) 98
      (by decide) [99]⟩

/-- Claim C2: once more lines have been added than the ring holds
(`size > history_max`), `ccli_history` with `past = 1` returns the most
recently added line and with `past = history_max` the oldest line still
stored (the one added `history_max` submissions ago). -/
theorem C2_ring_overwrite (max : Int) (lb : LineBuf) (ls : List (List Int))
    (hmax : 1 ≤ max) (hover : max < (ls.length : Int)) :
    ccli_history (addAll max lb ls) 1 = some (ls.getD (ls.length - 1) []) ∧
    ccli_history (addAll max lb ls) max =
      some (ls.getD (ls.length - max.toNat) []) := by
  constructor
  · have h := ccli_history_addAll max lb hmax ls 1 le_rfl (by omega) hmax
    rw [h]
    norm_num
  · exact ccli_history_addAll max lb hmax ls max hmax (by omega) le_rfl

/-- Witness for C2: capacity 2 and the three lines `a`, `b`, `c`; the
most recent line is `c` and the oldest still stored is `b`. -/
theorem C2_ring_overwrite_witness :
    (1 : Int) ≤ 2 ∧ (2 : Int) < (([[97], [98], [99]] : List (List Int)).length : Int) ∧
    ccli_history (addAll 2 ⟨[0], 1, 0, 0, 0⟩ [[97], [98], [99]]) 1 =
      some ([[97], [98], [99]].getD (3 - 1) []) ∧
    ccli_history (addAll 2 ⟨[0], 1, 0, 0, 0⟩ [[97], [98], [99]]) 2 =
      some ([[97], [98], [99]].getD (3 - (2 : Int).toNat) []) :=
  ⟨by norm_num, by norm_num,
    (C2_ring_overwrite 2 ⟨[0], 1, 0, 0, 0⟩ [[97], [98], [99]]
      (by norm_num) (by norm_num)).1,
    (C2_ring_overwrite 2 ⟨[0], 1, 0, 0, 0⟩ [[97], [98], [99]]
      (by norm_num) (by norm_num)).2⟩

/-- Claim C3, as stated, is false: `ccli_history` only rejects
`past > size` and `past > history_max`.  For `past = 0` and negative
`past` — both outside the logical window, where the claim demands NIL —
the code indexes the ring and returns a stale line: after adding `a`,
`b`, `c` to a ring of capacity 2, `past = 0` returns `b` and
`past = -1` returns `c`. -/
theorem C3_counterexample :
    ccli_history (addAll 2 ⟨[0], 1, 0, 0, 0⟩ [[97], [98], [99]]) 0 = some [98] ∧
    ccli_history (addAll 2 ⟨[0], 1, 0, 0, 0⟩ [[97], [98], [99]]) (-1) = some [99] := by
  decide

/-- Claim C3 (amended): `ccli_history` returns NIL when `past` exceeds
the number of lines ever added or the ring capacity, and returns the
entry `past` steps back for every `past` in `[1, min(size, max)]`; for
`past ≤ 0` it performs no validation (the counterexample shows non-NIL
results there). -/
theorem C3_history_window (max : Int) (lb : LineBuf) (ls : List (List Int))
    (past : Int) (hmax : 1 ≤ max) :
    ((ls.length : Int) < past ∨ max < past →
      ccli_history (addAll max lb ls) past = none) ∧
    (1 ≤ past → past ≤ (ls.length : Int) → past ≤ max →
      ccli_history (addAll max lb ls) past =
        some (ls.getD (ls.length - past.toNat) [])) := by
  obtain ⟨hsz, hmx, hln⟩ := addAll_shape max lb hmax ls
  constructor
  · intro h
    unfold ccli_history
    rw [if_pos (by rw [hsz, hmx]; exact h)]
  · intro h1 h2 h3
    exact ccli_history_addAll max lb hmax ls past h1 h2 h3

/-- Witness for C3 (amended): capacity 2, lines `a`, `b`, `c`;
`past = 5` exceeds both bounds and yields NIL, `past = 2` is in the
window and yields `b`. -/
theorem C3_history_window_witness :
    (1 : Int) ≤ 2 ∧
    ((([[97], [98], [99]] : List (List Int)).length : Int) < 5 ∨ (2 : Int) < 5 →
      ccli_history (addAll 2 ⟨[0], 1, 0, 0, 0⟩ [[97], [98], [99]]) 5 = none) ∧
    ((1 : Int) ≤ 2 → (2 : Int) ≤ (([[97], [98], [99]] : List (List Int)).length : Int) →
      (2 : Int) ≤ 2 →
      ccli_history (addAll 2 ⟨[0], 1, 0, 0, 0⟩ [[97], [98], [99]]) 2 =
        some ([[97], [98], [99]].getD (3 - (2 : Int).toNat) [])) :=
  ⟨by norm_num,
    (C3_history_window 2 ⟨[0], 1, 0, 0, 0⟩ [[97], [98], [99]] 5 (by norm_num)).1,
    (C3_history_window 2 ⟨[0], 1, 0, 0, 0⟩ [[97], [98], [99]] 2 (by norm_num)).2⟩

/-- Claim C8, as stated, is false for `history_down`: from the entry
below the most recent line (`current_line = 1` of 2, a scratch copy
pending), pressing down moves the view to the line being composed
(`current_line` becomes 2 = size and the edit buffer is replaced by the
scratch line `t`) — a genuine move — yet the function reports 1. -/
theorem C8_counterexample :
    (history_down ⟨[[97], [98]], 2, 256, 1, some [116],
        ⟨[98, 0, 0, 0], 4, 1, 1, 0⟩⟩ 1).1 = 1 ∧
    (history_down ⟨[[97], [98]], 2, 256, 1, some [116],
        ⟨[98, 0, 0, 0], 4, 1, 1, 0⟩⟩ 1).2.current_line ≠
      (⟨[[97], [98]], 2, 256, 1, some [116],
        ⟨[98, 0, 0, 0], 4, 1, 1, 0⟩⟩ : HState).current_line ∧
    (history_down ⟨[[97], [98]], 2, 256, 1, some [116],
        ⟨[98, 0, 0, 0], 4, 1, 1, 0⟩⟩ 1).2.line ≠
      (⟨[[97], [98]], 2, 256, 1, some [116],
        ⟨[98, 0, 0, 0], 4, 1, 1, 0⟩⟩ : HState).line := by
  decide

/-- Claim C8 (amended): `history_up` reports 1 exactly when it did not
move (the state is unchanged) and a 0 report means `current_line`
changed; `history_down` reports 1 exactly when it lands on the line
being composed (`current_line' = size`) — which is a no-op only when the
view already was there — and a 0 report means `current_line` changed;
whenever `history_down` starts away from the composed line it moves even
though it may still report 1. -/
theorem C8_nav_return (st : HState) (cnt : Int) (hcnt : 1 ≤ cnt) :
    (((history_up st cnt).1 = 1 ↔ (history_up st cnt).2 = st) ∧
     ((history_up st cnt).1 = 0 →
        (history_up st cnt).2.current_line ≠ st.current_line)) ∧
    (((history_down st cnt).1 = 1 ↔
        (history_down st cnt).2.current_line = st.history_size) ∧
     ((history_down st cnt).1 = 0 →
        (history_down st cnt).2.current_line ≠ st.current_line) ∧
     (st.current_line ≠ st.history_size →
        (history_down st cnt).2.current_line ≠ st.current_line)) := by
  obtain ⟨-, hu1, hu2⟩ := history_up_ret st cnt
  obtain ⟨-, hd1, hd2, hd3⟩ := history_down_ret st cnt hcnt
  exact ⟨⟨hu1, hu2⟩, hd1, hd2, hd3⟩

/-- Witness for C8 (amended): the empty history right after allocation,
navigated by one step. -/
theorem C8_nav_return_witness :
    (1 : Int) ≤ 1 ∧
    (((history_up ⟨[], 0, 256, 0, none, ⟨[0], 1, 0, 0, 0⟩⟩ 1).1 = 1 ↔
        (history_up ⟨[], 0, 256, 0, none, ⟨[0], 1, 0, 0, 0⟩⟩ 1).2 =
          ⟨[], 0, 256, 0, none, ⟨[0], 1, 0, 0, 0⟩⟩) ∧
     ((history_up ⟨[], 0, 256, 0, none, ⟨[0], 1, 0, 0, 0⟩⟩ 1).1 = 0 →
        (history_up ⟨[], 0, 256, 0, none, ⟨[0], 1, 0, 0, 0⟩⟩ 1).2.current_line ≠
          (⟨[], 0, 256, 0, none, ⟨[0], 1, 0, 0, 0⟩⟩ : HState).current_line)) ∧
    (((history_down ⟨[], 0, 256, 0, none, ⟨[0], 1, 0, 0, 0⟩⟩ 1).1 = 1 ↔
        (history_down ⟨[], 0, 256, 0, none, ⟨[0], 1, 0, 0, 0⟩⟩ 1).2.current_line =
          (⟨[], 0, 256, 0, none, ⟨[0], 1, 0, 0, 0⟩⟩ : HState).history_size) ∧
     ((history_down ⟨[], 0, 256, 0, none, ⟨[0], 1, 0, 0, 0⟩⟩ 1).1 = 0 →
        (history_down ⟨[], 0, 256, 0, none, ⟨[0], 1, 0, 0, 0⟩⟩ 1).2.current_line ≠
          (⟨[], 0, 256, 0, none, ⟨[0], 1, 0, 0, 0⟩⟩ : HState).current_line) ∧
     ((⟨[], 0, 256, 0, none, ⟨[0], 1, 0, 0, 0⟩⟩ : HState).current_line ≠
          (⟨[], 0, 256, 0, none, ⟨[0], 1, 0, 0, 0⟩⟩ : HState).history_size →
        (history_down ⟨[], 0, 256, 0, none, ⟨[0], 1, 0, 0, 0⟩⟩ 1).2.current_line ≠
          (⟨[], 0, 256, 0, none, ⟨[0], 1, 0, 0, 0⟩⟩ : HState).current_line)) :=
  ⟨by norm_num,
    C8_nav_return ⟨[], 0, 256, 0, none, ⟨[0], 1, 0, 0, 0⟩⟩ 1 (by norm_num)⟩

/-- Claim C5: on a registry holding at most one record per name (the
shape every sequence of registrations preserves), registering `name`
twice leaves exactly one record bearing `name`; the second registration
rewrites the record the first one left in place — keeping its stored
name string and completion, installing the latest callback and data —
and touches no other slot. -/
theorem C5_register_twice (cmds : List Command) (name : List Int)
    (cb1 d1 cb2 d2 : Nat)
    (hwf : cmds.countP (fun c => c.cmd = name) ≤ 1) :
    ∃ i c,
      find_command_idx (ccli_register_command cmds name cb1 d1).2 name = some i ∧
      (ccli_register_command cmds name cb1 d1).2.get? i = some c ∧
      c.cmd = name ∧ c.callback = cb1 ∧ c.data = d1 ∧
      (ccli_register_command (ccli_register_command cmds name cb1 d1).2
          name cb2 d2).2 =
        (ccli_register_command cmds name cb1 d1).2.set i
          { c with callback := cb2, data := d2 } ∧
      (ccli_register_command (ccli_register_command cmds name cb1 d1).2
          name cb2 d2).2.countP (fun c' => c'.cmd = name) = 1 ∧
      (∀ j, j ≠ i →
        (ccli_register_command (ccli_register_command cmds name cb1 d1).2
            name cb2 d2).2.get? j =
          (ccli_register_command cmds name cb1 d1).2.get? j) := by
  cases h1 : find_command_idx cmds name with
  | none =>
    have hcmds1 : (ccli_register_command cmds name cb1 d1).2 =
        cmds ++ [{ cmd := name, callback := cb1, completion := none,
                   data := d1 }] := by
      rw [register_command_fresh h1]
    unfold find_command_idx at h1
    have hcnt0 : cmds.countP (fun c => c.cmd = name) = 0 := by
      rw [List.countP_eq_zero]
      intro a ha
      simpa using List.findIdx?_eq_none_iff.mp h1 a ha
    have hfi1 : find_command_idx (ccli_register_command cmds name cb1 d1).2
        name = some cmds.length := by
      rw [hcmds1]
      unfold find_command_idx
      rw [List.findIdx?_append, h1]
      simp [List.findIdx?_cons]
    have hlen : cmds.length <
        (ccli_register_command cmds name cb1 d1).2.length := by
      rw [hcmds1]
      simp
    have h9 : (ccli_register_command cmds name cb1 d1).2.get? cmds.length =
        some { cmd := name, callback := cb1, completion := none,
               data := d1 } := by
      rw [hcmds1, List.get?_eq_getElem?]
      exact List.getElem?_concat_length cmds _
    obtain ⟨hx1, hget1⟩ := List.get?_eq_some.mp h9
    have hset : (ccli_register_command (ccli_register_command cmds name cb1
        d1).2 name cb2 d2).2 =
        (ccli_register_command cmds name cb1 d1).2.set cmds.length
          { cmd := name, callback := cb2, completion := none, data := d2 } := by
      rw [register_command_found hfi1]
      dsimp only
      rw [modifyIdx_eq_set _ _ cmds.length hlen, hget1]
    have hcnt1 : (ccli_register_command cmds name cb1 d1).2.countP
        (fun c' => c'.cmd = name) = 1 := by
      rw [hcmds1, List.countP_append, hcnt0]
      simp
    have h9E := h9
    rw [List.get?_eq_getElem?, List.getElem?_eq_getElem hlen] at h9E
    have hgE1 := Option.some.inj h9E
    have hcntF : (ccli_register_command (ccli_register_command cmds name cb1
        d1).2 name cb2 d2).2.countP (fun c' => c'.cmd = name) = 1 := by
      rw [hset, List.countP_set _ _ _ _ hlen, hgE1, hcnt1]
      simp
    refine ⟨cmds.length,
      { cmd := name, callback := cb1, completion := none, data := d1 },
      hfi1, h9, rfl, rfl, rfl, hset, hcntF, ?_⟩
    intro j hj
    rw [hset, List.get?_eq_getElem?, List.get?_eq_getElem?,
      List.getElem?_set_ne (fun hx => hj hx.symm)]
  | some i0 =>
    obtain ⟨hlt0, hp0⟩ := findIdx?_some_spec
      (show List.findIdx? (fun c : Command => (c.cmd = name : Bool)) cmds =
        some i0 from h1)
    have hcmds1 : (ccli_register_command cmds name cb1 d1).2 =
        cmds.set i0 { cmds.get ⟨i0, hlt0⟩ with callback := cb1, data := d1 } := by
      rw [register_command_found h1]
      dsimp only
      rw [modifyIdx_eq_set _ _ i0 hlt0]
    have hp1 : ((fun c : Command => (c.cmd = name : Bool))
        { cmds.get ⟨i0, hlt0⟩ with callback := cb1, data := d1 }) = true := by
      simpa using hp0
    have hfi1 : find_command_idx (ccli_register_command cmds name cb1 d1).2
        name = some i0 := by
      rw [hcmds1]
      exact findIdx?_set_preserve (p := fun c : Command => (c.cmd = name : Bool))
        (x := { cmds.get ⟨i0, hlt0⟩ with callback := cb1, data := d1 }) hp1 cmds i0 h1
    have hlen1 : i0 < (ccli_register_command cmds name cb1 d1).2.length := by
      rw [hcmds1, List.length_set]
      exact hlt0
    have h9 : (ccli_register_command cmds name cb1 d1).2.get? i0 =
        some { cmds.get ⟨i0, hlt0⟩ with callback := cb1, data := d1 } := by
      rw [hcmds1, List.get?_eq_getElem?]
      exact List.getElem?_set_self hlt0
    have h9E := h9
    rw [List.get?_eq_getElem?, List.getElem?_eq_getElem hlen1] at h9E
    have hgE1 := Option.some.inj h9E
    obtain ⟨hx1, hget1⟩ := List.get?_eq_some.mp h9
    have hset : (ccli_register_command (ccli_register_command cmds name cb1
        d1).2 name cb2 d2).2 =
        (ccli_register_command cmds name cb1 d1).2.set i0
          { { cmds.get ⟨i0, hlt0⟩ with callback := cb1, data := d1 } with callback := cb2, data := d2 } := by
      rw [register_command_found hfi1]
      dsimp only
      rw [modifyIdx_eq_set _ _ i0 hlen1, hget1]
    have hcnt : cmds.countP (fun c => c.cmd = name) = 1 := by
      have hpos : 0 < cmds.countP (fun c => c.cmd = name) :=
        List.countP_pos.mpr ⟨cmds.get ⟨i0, hlt0⟩, List.get_mem cmds i0 hlt0,
          hp0⟩
      omega
    have h8 : cmds.get? i0 = some (cmds.get ⟨i0, hlt0⟩) :=
      List.get?_eq_some.mpr ⟨hlt0, rfl⟩
    rw [List.get?_eq_getElem?, List.getElem?_eq_getElem hlt0] at h8
    have hgE0 := Option.some.inj h8
    have hcnt1 : (ccli_register_command cmds name cb1 d1).2.countP
        (fun c' => c'.cmd = name) = 1 := by
      rw [hcmds1, List.countP_set _ _ _ _ hlt0, hgE0, hcnt]
      have hc : cmds[i0].cmd = name := by
        rw [hgE0]
        exact of_decide_eq_true hp0
      simp [hc]
    have hcntF : (ccli_register_command (ccli_register_command cmds name cb1
        d1).2 name cb2 d2).2.countP (fun c' => c'.cmd = name) = 1 := by
      rw [hset, List.countP_set _ _ _ _ hlen1, hgE1, hcnt1]
      have hc : cmds[i0].cmd = name := by
        rw [hgE0]
        exact of_decide_eq_true hp0
      simp [hc]
    refine ⟨i0, { cmds.get ⟨i0, hlt0⟩ with callback := cb1, data := d1 },
      hfi1, h9, by simpa using hp0, rfl, rfl, hset, hcntF, ?_⟩
    intro j hj
    rw [hset, List.get?_eq_getElem?, List.get?_eq_getElem?,
      List.getElem?_set_ne (fun hx => hj hx.symm)]

/-- Witness for C5: starting from the empty registry, registering the
name `a` twice. -/
theorem C5_register_twice_witness :
    ([] : List Command).countP (fun c => c.cmd = [97]) ≤ 1 ∧
    (∃ i c,
      find_command_idx (ccli_register_command [] [97] 1 2).2 [97] = some i ∧
      (ccli_register_command [] [97] 1 2).2.get? i = some c ∧
      c.cmd = [97] ∧ c.callback = 1 ∧ c.data = 2 ∧
      (ccli_register_command (ccli_register_command [] [97] 1 2).2
          [97] 3 4).2 =
        (ccli_register_command [] [97] 1 2).2.set i
          { c with callback := 3, data := 4 } ∧
      (ccli_register_command (ccli_register_command [] [97] 1 2).2
          [97] 3 4).2.countP (fun c' => c'.cmd = [97]) = 1 ∧
      (∀ j, j ≠ i →
        (ccli_register_command (ccli_register_command [] [97] 1 2).2
            [97] 3 4).2.get? j =
          (ccli_register_command [] [97] 1 2).2.get? j)) :=
  ⟨by decide, C5_register_twice [] [97] 1 2 3 4 (by decide)⟩

/-- Claim C10: on an alias registry holding at most one record per name
(the shape registration preserves), `ccli_register_alias` with an
already-registered name and a non-empty command overwrites that record's
expansion in place: the record keeps its slot and name, exactly one
record bears the name afterwards, the list length is unchanged (nothing
is appended), and every other slot is untouched.  (The C `free` of the
previous expansion string is a heap action outside the model.) -/
theorem C10_alias_replace (al : List Alias) (name command : List Int)
    (hcmd : command.length ≠ 0) (i0 : Nat)
    (hfound : find_alias_idx al name = some i0)
    (hwf : al.countP (fun a => a.aname = name) ≤ 1) :
    ∃ a0, al.get? i0 = some a0 ∧ a0.aname = name ∧
      (ccli_register_alias al name command).2 =
        al.set i0 { a0 with command := command } ∧
      (ccli_register_alias al name command).2.length = al.length ∧
      (ccli_register_alias al name command).2.countP
        (fun a => a.aname = name) = 1 ∧
      (∀ j, j ≠ i0 →
        (ccli_register_alias al name command).2.get? j = al.get? j) := by
  obtain ⟨hlt0, hp0⟩ := findIdx?_some_spec
    (show List.findIdx? (fun a : Alias => (a.aname = name : Bool)) al =
      some i0 from hfound)
  have hal1 : (ccli_register_alias al name command).2 =
      al.set i0 { al.get ⟨i0, hlt0⟩ with command := command } := by
    rw [register_alias_found hcmd hfound]
    dsimp only
    rw [modifyIdx_eq_set _ _ i0 hlt0]
  have h8 : al.get? i0 = some (al.get ⟨i0, hlt0⟩) :=
    List.get?_eq_some.mpr ⟨hlt0, rfl⟩
  have h8E := h8
  rw [List.get?_eq_getElem?, List.getElem?_eq_getElem hlt0] at h8E
  have hgE0 := Option.some.inj h8E
  have hcnt : al.countP (fun a => a.aname = name) = 1 := by
    have hpos : 0 < al.countP (fun a => a.aname = name) :=
      List.countP_pos.mpr ⟨al.get ⟨i0, hlt0⟩, List.get_mem al i0 hlt0, hp0⟩
    omega
  refine ⟨al.get ⟨i0, hlt0⟩, h8, of_decide_eq_true hp0, hal1, ?_, ?_, ?_⟩
  · rw [hal1, List.length_set]
  · rw [hal1, List.countP_set _ _ _ _ hlt0, hgE0, hcnt]
    have hc : al[i0].aname = name := by
      rw [hgE0]
      exact of_decide_eq_true hp0
    simp [hc]
  · intro j hj
    rw [hal1, List.get?_eq_getElem?, List.get?_eq_getElem?,
      List.getElem?_set_ne (fun hx => hj hx.symm)]

/-- Witness for C10: a one-alias registry mapping `a` to `b`,
re-registered to map `a` to `c`. -/
theorem C10_alias_replace_witness :
    ([99] : List Int).length ≠ 0 ∧
    find_alias_idx [⟨[97], [98], false⟩] [97] = some 0 ∧
    ([(⟨[97], [98], false⟩ : Alias)]).countP (fun a => a.aname = [97]) ≤ 1 ∧
    (∃ a0, [(⟨[97], [98], false⟩ : Alias)].get? 0 = some a0 ∧
      a0.aname = [97] ∧
      (ccli_register_alias [⟨[97], [98], false⟩] [97] [99]).2 =
        [(⟨[97], [98], false⟩ : Alias)].set 0 { a0 with command := [99] } ∧
      (ccli_register_alias [⟨[97], [98], false⟩] [97] [99]).2.length =
        [(⟨[97], [98], false⟩ : Alias)].length ∧
      (ccli_register_alias [⟨[97], [98], false⟩] [97] [99]).2.countP
        (fun a => a.aname = [97]) = 1 ∧
      (∀ j, j ≠ 0 →
        (ccli_register_alias [⟨[97], [98], false⟩] [97] [99]).2.get? j =
          [(⟨[97], [98], false⟩ : Alias)].get? j)) :=
  ⟨by decide, by decide, by decide,
    C10_alias_replace [⟨[97], [98], false⟩] [97] [99] (by decide) 0
      (by decide) (by decide)⟩

/-- Claim C6, as stated, is false: a backslash at the very start of an
argument does not yield the next byte verbatim — the word loop's escape
branch consumes the backslash together with the following byte and drops
both, so parsing `\ab` produces the single argument `b` and the escaped
`a` appears in no argument at all. -/
theorem C6_counterexample :
    ccli_line_parse [92, 97, 98] = [[98]] ∧
    ∀ w ∈ ccli_line_parse [92, 97, 98], ¬ (97 ∈ w) := by
  decide

/-- Claim C6 (amended): wherever the tokeniser encounters a backslash
other than at the very start of an argument, the following byte is
taken verbatim, whatever the quoting context.  `ccli_line_parse` is the
composition of two loops: `scanWord` examines every byte of every input
at some quote state `q` (0 unquoted, 39 inside single quotes, 34 inside
double quotes) with some remainder, and `stripArg` re-examines every
retained word byte likewise; the first two conjuncts say that the scan,
from an arbitrary state before an arbitrary remainder, keeps a `\x`
pair intact (or a lone final backslash), and the next two that the
strip pass, again from an arbitrary state, emits the escaped byte `x`
itself (or keeps a lone final backslash).  Quantified over `q`, `x` and
the remainder, these step equations cover every occurrence of `\x` at
every position of every input.  The one exception is the
argument-start escape branch of the outer word loop, whose step
equation — it drops the pair, as in the counterexample — is the final
conjunct.  `x ≠ 0` only keeps the byte a faithful C string byte, where
0 terminates the input. -/
theorem C6_backslash_verbatim (q x : Int) (rest : List Int) (fuel : Nat)
    (hx : x ≠ 0) :
    (scanWord q (92 :: x :: rest) none =
      (92 :: x :: (scanWord q rest none).1, (scanWord q rest none).2)) ∧
    (scanWord q [92] none = ([92], [])) ∧
    (stripArg q (92 :: x :: rest) = x :: stripArg q rest) ∧
    (stripArg q [92] = [92]) ∧
    (parseWords (fuel + 1) false (92 :: x :: rest) none =
      parseWords fuel true rest none) := by
  refine ⟨?_, ?_, rfl, rfl, rfl⟩
  · by_cases hq : q = 0 <;> simp [scanWord, match_delim]
  · by_cases hq : q = 0 <;> simp [scanWord, match_delim]

/-- Witness for C6 (amended): the escaped byte `z`, inside single
quotes (`q = 39`), before the remainder `a`, with one unit of outer
fuel. -/
theorem C6_backslash_verbatim_witness :
    (122 : Int) ≠ 0 ∧
    ((scanWord 39 (92 :: 122 :: [97]) none =
        (92 :: 122 :: (scanWord 39 [97] none).1, (scanWord 39 [97] none).2)) ∧
     (scanWord 39 [92] none = ([92], [])) ∧
     (stripArg 39 (92 :: 122 :: [97]) = 122 :: stripArg 39 [97]) ∧
     (stripArg 39 [92] = [92]) ∧
     (parseWords (0 + 1) false (92 :: 122 :: [97]) none =
        parseWords 0 true [97] none)) :=
  ⟨by decide, C6_backslash_verbatim 39 122 [97] 0 (by decide)⟩

/-- Claim C4: when the line's first word names an alias whose record is
not currently executing, dispatch expands it exactly once: the `exec`
flag is set, the expansion line is built and re-dispatched, and — the
expansion's own first word naming the same alias again — the inner
invocation finds the flag set and `execute_alias` routes it to the
unknown-command hook instead of expanding; afterwards the flag is
cleared, leaving the registry exactly as it started.  The dispatcher
`execute` itself is modelled from the spec (`executeD`); `execute_alias`
is from the sources. -/
theorem C4_alias_once (fuel : Nat) (cmds : List Command) (al : List Alias)
    (line a0 : List Int) (rest rest2 : List (List Int)) (i : Nat) (a : Alias)
    (hist : Bool)
    (hparse : ccli_line_parse line = a0 :: rest)
    (hfind : find_alias_idx al a0 = some i)
    (hget : al.get? i = some a)
    (hexec : a.exec = false)
    (hinner : ccli_line_parse (build_alias_line a.command rest) = a0 :: rest2) :
    executeD (fuel + 2) cmds al line hist =
      (al, Event.expand a0 ::
        Event.unknown (build_alias_line a.command rest) (a0 :: rest2) ::
        (if hist then [Event.hist line] else [])) := by
  obtain ⟨hlt, hp⟩ := findIdx?_some_spec
    (show List.findIdx? (fun x : Alias => (x.aname = a0 : Bool)) al = some i
      from hfind)
  obtain ⟨hlt', hgeq'⟩ := List.get?_eq_some.mp hget
  have hgeq : al.get ⟨i, hlt⟩ = a := hgeq'
  have haname : a.aname = a0 := by
    have h2 := of_decide_eq_true hp
    rw [hgeq] at h2
    exact h2
  have hal1 : modifyIdx (fun x => { x with exec := true }) i al =
      al.set i { a with exec := true } := by
    rw [modifyIdx_eq_set _ _ i hlt, hgeq]
  have hfind1 : find_alias_idx (al.set i { a with exec := true }) a0 =
      some i := by
    exact findIdx?_set_preserve (p := fun x : Alias => (x.aname = a0 : Bool))
      (x := { a with exec := true }) (by simpa using haname) al i hfind
  have hget1 : (al.set i { a with exec := true }).get? i =
      some { a with exec := true } := by
    rw [List.get?_eq_getElem?]
    exact List.getElem?_set_self hlt
  have hlt1 : i < (al.set i { a with exec := true }).length := by
    rw [List.length_set]
    exact hlt
  have hget1E : (al.set i { a with exec := true }).get ⟨i, hlt1⟩ =
      { a with exec := true } := by
    obtain ⟨h8, h9⟩ := List.get?_eq_some.mp hget1
    exact h9
  have hback : modifyIdx (fun x => { x with exec := false }) i
      (al.set i { a with exec := true }) = al := by
    rw [modifyIdx_eq_set _ _ i hlt1, hget1E]
    have : ({ { a with exec := true } with exec := false } : Alias) = a := by
      cases a
      simp_all
    rw [this]
    have h7 : (al.set i { a with exec := true }).set i a =
        al.set i a := List.set_set _ _ _ _
    rw [h7, ← hgeq, set_get_self]
  simp only [executeD, execute_aliasD]
  rw [hparse]
  simp only [hfind]
  simp only [hget]
  rw [hexec]
  simp only [Bool.false_eq_true, if_false]
  simp only [List.tail_cons]
  rw [hal1]
  simp only [hinner]
  simp only [hfind1]
  simp only [hget1]
  simp only [if_true]
  rw [hback]
  simp [haname]

/-- Witness for C4: the self-recursive alias `a → a` dispatched on the
line `a`: one expansion event, then the unknown hook on the expansion,
then the history append; the registry is unchanged. -/
theorem C4_alias_once_witness :
    (ccli_line_parse [97] = [[97]] ∧
     find_alias_idx [⟨[97], [97], false⟩] [97] = some 0 ∧
     ([(⟨[97], [97], false⟩ : Alias)]).get? 0 = some ⟨[97], [97], false⟩ ∧
     (⟨[97], [97], false⟩ : Alias).exec = false ∧
     ccli_line_parse (build_alias_line [97] []) = [[97]]) ∧
    executeD (0 + 2) [] [⟨[97], [97], false⟩] [97] true =
      ([⟨[97], [97], false⟩],
        Event.expand [97] ::
        Event.unknown (build_alias_line [97] []) ([97] :: []) ::
        (if true then [Event.hist [97]] else [])) :=
  ⟨⟨by decide, by decide, by decide, rfl, by decide⟩,
    C4_alias_once 0 [] [⟨[97], [97], false⟩] [97] [97] [] [] 0
      ⟨[97], [97], false⟩ true (by decide) (by decide) (by decide) rfl
      (by decide)⟩

/-- Claim C9, as stated, is false in its first half: with `run` and
`read` registered and the buffer holding `r` (cursor at the end), the
longest common prefix of the two matches is `r` itself, which is already
typed — the first Tab inserts nothing and the buffer still reads `r`,
not `re`. -/
theorem C9_counterexample :
    (do_completion
        ⟨[⟨[114, 117, 110], 0, none, 0⟩, ⟨[114, 101, 97, 100], 0, none, 0⟩],
          none, 0, none, 0, 0, true, true, 80, 24, false, []⟩
        ⟨[114, 0, 0, 0, 0, 0, 0, 0], 8, 1, 1, 0⟩ 0).2.1 =
      ⟨[114, 0, 0, 0, 0, 0, 0, 0], 8, 1, 1, 0⟩ ∧
    cstring (do_completion
        ⟨[⟨[114, 117, 110], 0, none, 0⟩, ⟨[114, 101, 97, 100], 0, none, 0⟩],
          none, 0, none, 0, 0, true, true, 80, 24, false, []⟩
        ⟨[114, 0, 0, 0, 0, 0, 0, 0], 8, 1, 1, 0⟩ 0).2.1.data ≠
      [114, 101] := by
  decide

/-- Claim C9 (amended): with `run` and `read` registered and the buffer
holding `r` at the cursor, the first Tab inserts the common prefix of
the matches beyond what is typed — here nothing, the prefix being `r`
itself — and prints nothing; the repeated Tab leaves the buffer alone
and paints the full match set `read  run` in one multi-column row on the
output pane (a leading LF, `read`, two separating spaces, `run` padded
to the column width, LF). -/
theorem C9_completion_display :
    ((do_completion
        ⟨[⟨[114, 117, 110], 0, none, 0⟩, ⟨[114, 101, 97, 100], 0, none, 0⟩],
          none, 0, none, 0, 0, true, true, 80, 24, false, []⟩
        ⟨[114, 0, 0, 0, 0, 0, 0, 0], 8, 1, 1, 0⟩ 0).2 =
      (⟨[114, 0, 0, 0, 0, 0, 0, 0], 8, 1, 1, 0⟩, [])) ∧
    ((do_completion
        ⟨[⟨[114, 117, 110], 0, none, 0⟩, ⟨[114, 101, 97, 100], 0, none, 0⟩],
          none, 0, none, 0, 0, true, true, 80, 24, false, []⟩
        ⟨[114, 0, 0, 0, 0, 0, 0, 0], 8, 1, 1, 0⟩ 1).2 =
      (⟨[114, 0, 0, 0, 0, 0, 0, 0], 8, 1, 1, 0⟩,
        [10, 114, 101, 97, 100, 32, 32, 114, 117, 110, 32, 10])) := by
  decide

end Claims

end Ccli
